import Mathlib

/-!
Shallow embedding of `lib/storage.js` (sinopia's storage orchestration layer).

Conventions of the embedding:

* JS documents are modelled structurally.  A version body is opaque except for
  the JS value `null`, which the merge code distinguishes via `== null`
  (constructor `VObj.vnull`).
* JS objects used as string-keyed dictionaries become association lists; JS
  property assignment keeps the position of an existing key and appends new
  keys, which `insertA` reproduces.  `undefined` reads become `Option`.
* Callbacks `(err, data)` become `Except ErrObj _` values; the behaviour of an
  external collaborator (local store, uplink) during one operation is passed in
  as data.
* Machine time is a parameter `now : Int`; `Date.now()` is frozen for the
  duration of one pass.
* Code paths where the JS would throw a `TypeError` (e.g. a 304 answer when no
  sync record exists) are modelled as `Option.none` ("crash") results.
* `Utils` and the local store (`local-storage.js`) are not part of the given
  source tree; the definitions in the `Utils` namespace are modelled from the
  spec, as their doc comments state.  `local.update_versions` is modelled as a
  successful identity persistence (the spec gives it no failure conditions).
-/

set_option linter.unusedVariables false
set_option linter.unnecessarySeqFocus false

/-- A version body: opaque JSON data (`vdata`) or the JS value `null`
(`vnull`), which `storage.js` treats as absent via `== null`. -/
inductive VObj where
  | vnull
  | vdata (payload : String)
deriving DecidableEq, Repr

/-- A `dist-tags` value: a version string, or (transiently, during merge)
a list of candidate version strings. -/
inductive TagVal where
  | str (s : String)
  | list (l : List String)
deriving DecidableEq, Repr

/-- A per-uplink cache record stored under `_uplinks`; either field may be
missing on a document read from disk. -/
structure SyncRec where
  etag : Option String
  fetched : Option Int
deriving DecidableEq, Repr

/-- An `http-errors`-style error object; `status` is `none` when the error
carries no `status` property (e.g. an assertion error). -/
structure ErrObj where
  status : Option Int
  msg : String
deriving DecidableEq, Repr

/-- First-key lookup in an association list (JS property read). -/
def lookupA {α : Type} : List (String × α) → String → Option α
  | [], _ => none
  | (k, v) :: t, k2 => if k = k2 then some v else lookupA t k2

/-- JS property assignment: replace the first occurrence of the key in place,
otherwise append the key at the end. -/
def insertA {α : Type} : List (String × α) → String → α → List (String × α)
  | [], k2, v2 => [(k2, v2)]
  | (k, v) :: t, k2, v2 => if k = k2 then (k2, v2) :: t else (k, v) :: insertA t k2 v2

/-- `Object.keys` of an association list. -/
def keysA {α : Type} (l : List (String × α)) : List String := l.map Prod.fst

/-- A parsed semantic version. -/
structure SemVer where
  major : Nat
  minor : Nat
  patch : Nat
  pre : Option String
deriving DecidableEq, Repr

/-- Split a character list on the dot character. -/
def splitDots : List Char → List (List Char)
  | [] => [[]]
  | c :: rest =>
      let r := splitDots rest
      if c = '.' then [] :: r
      else
        match r with
        | h :: t => (c :: h) :: t
        | [] => [[c]]

/-- Read a nonempty all-digit character list as a natural number. -/
def digitsToNat : List Char → Option Nat
  | [] => none
  | l =>
      if l.all Char.isDigit then
        some (l.foldl (fun n c => n * 10 + (c.toNat - 48)) 0)
      else none

/-- Modelled from the spec: parse a version string of shape
`major.minor.patch` with an optional `-prerelease` suffix; anything else does
not qualify as a semantic version (the spec drops such candidates). -/
def parseSemver (s : String) : Option SemVer :=
  let cs := s.data
  let core := cs.takeWhile (· ≠ '-')
  let rest := cs.drop core.length
  let pre : Option String :=
    match rest with
    | [] => none
    | _ :: t => some (String.mk t)
  match (splitDots core).map digitsToNat with
  | [some a, some b, some c] => some { major := a, minor := b, patch := c, pre := pre }
  | _ => none

/-- Prerelease comparison, modelled from the spec: a prerelease precedes the
plain release of the same triple; prerelease labels are ordered
lexicographically. -/
def prele : Option String → Option String → Prop
  | none, none => True
  | none, some _ => False
  | some _, none => True
  | some a, some b => a ≤ b

instance : (p q : Option String) → Decidable (prele p q)
  | none, none => isTrue trivial
  | none, some _ => isFalse (fun h => h)
  | some _, none => isTrue trivial
  | some a, some b => inferInstanceAs (Decidable (a ≤ b))

/-- Semantic-version order on parsed versions (lexicographic on the numeric
triple, then prerelease). -/
def svle (a b : SemVer) : Prop :=
  a.major < b.major ∨ (a.major = b.major ∧
    (a.minor < b.minor ∨ (a.minor = b.minor ∧
      (a.patch < b.patch ∨ (a.patch = b.patch ∧ prele a.pre b.pre)))))

instance (a b : SemVer) : Decidable (svle a b) := by unfold svle; infer_instance

/-- Order on parse results: an unparsable string sorts below every parsable
one (it never wins a tie-break). -/
def svleO : Option SemVer → Option SemVer → Prop
  | none, _ => True
  | some _, none => False
  | some x, some y => svle x y

instance : (p q : Option SemVer) → Decidable (svleO p q)
  | none, _ => isTrue trivial
  | some _, none => isFalse (fun h => h)
  | some x, some y => inferInstanceAs (Decidable (svle x y))

/-- The semantic-version (pre)order on version strings used for sorting. -/
def semverR (a b : String) : Prop := svleO (parseSemver a) (parseSemver b)

instance : DecidableRel semverR := fun a b =>
  inferInstanceAs (Decidable (svleO (parseSemver a) (parseSemver b)))

/-- A version string qualifies when it parses as a semantic version. -/
def qualifies (s : String) : Bool := (parseSemver s).isSome

theorem prele_refl (p : Option String) : prele p p := by
  cases p <;> simp [prele]

theorem prele_total (p q : Option String) : prele p q ∨ prele q p := by
  cases p <;> cases q <;> simp [prele] <;> exact le_total _ _

theorem prele_trans {p q r : Option String} (h1 : prele p q) (h2 : prele q r) :
    prele p r := by
  cases p <;> cases q <;> cases r <;> simp [prele] at * <;> try exact trivial
  exact le_trans h1 h2

theorem svle_refl (a : SemVer) : svle a a := by
  unfold svle
  exact Or.inr ⟨rfl, Or.inr ⟨rfl, Or.inr ⟨rfl, prele_refl _⟩⟩⟩

theorem svle_total (a b : SemVer) : svle a b ∨ svle b a := by
  unfold svle
  rcases Nat.lt_trichotomy a.major b.major with h | h | h
  · exact Or.inl (Or.inl h)
  · rcases Nat.lt_trichotomy a.minor b.minor with h2 | h2 | h2
    · exact Or.inl (Or.inr ⟨h, Or.inl h2⟩)
    · rcases Nat.lt_trichotomy a.patch b.patch with h3 | h3 | h3
      · exact Or.inl (Or.inr ⟨h, Or.inr ⟨h2, Or.inl h3⟩⟩)
      · rcases prele_total a.pre b.pre with h4 | h4
        · exact Or.inl (Or.inr ⟨h, Or.inr ⟨h2, Or.inr ⟨h3, h4⟩⟩⟩)
        · exact Or.inr (Or.inr ⟨h.symm, Or.inr ⟨h2.symm, Or.inr ⟨h3.symm, h4⟩⟩⟩)
      · exact Or.inr (Or.inr ⟨h.symm, Or.inr ⟨h2.symm, Or.inl h3⟩⟩)
    · exact Or.inr (Or.inr ⟨h.symm, Or.inl h2⟩)
  · exact Or.inr (Or.inl h)

theorem svle_trans {a b c : SemVer} (h1 : svle a b) (h2 : svle b c) : svle a c := by
  unfold svle at *
  rcases h1 with h1 | ⟨e1, h1⟩
  · rcases h2 with h2 | ⟨e2, h2⟩
    · exact Or.inl (Nat.lt_trans h1 h2)
    · exact Or.inl (e2 ▸ h1)
  · rcases h2 with h2 | ⟨e2, h2⟩
    · exact Or.inl (e1 ▸ h2)
    · refine Or.inr ⟨e1.trans e2, ?_⟩
      rcases h1 with h1 | ⟨f1, h1⟩
      · rcases h2 with h2 | ⟨f2, h2⟩
        · exact Or.inl (Nat.lt_trans h1 h2)
        · exact Or.inl (f2 ▸ h1)
      · rcases h2 with h2 | ⟨f2, h2⟩
        · exact Or.inl (f1 ▸ h2)
        · refine Or.inr ⟨f1.trans f2, ?_⟩
          rcases h1 with h1 | ⟨g1, h1⟩
          · rcases h2 with h2 | ⟨g2, h2⟩
            · exact Or.inl (Nat.lt_trans h1 h2)
            · exact Or.inl (g2 ▸ h1)
          · rcases h2 with h2 | ⟨g2, h2⟩
            · exact Or.inl (g1 ▸ h2)
            · exact Or.inr ⟨g1.trans g2, prele_trans h1 h2⟩

theorem svleO_refl (p : Option SemVer) : svleO p p := by
  cases p <;> simp [svleO]
  exact svle_refl _

theorem svleO_total (p q : Option SemVer) : svleO p q ∨ svleO q p := by
  cases p <;> cases q <;> simp [svleO]
  exact svle_total _ _

theorem svleO_trans {p q r : Option SemVer} (h1 : svleO p q) (h2 : svleO q r) :
    svleO p r := by
  cases p <;> cases q <;> cases r <;> simp_all [svleO]
  exact svle_trans h1 h2

theorem semverR_refl (a : String) : semverR a a := svleO_refl _

theorem semverR_total (a b : String) : semverR a b ∨ semverR b a := svleO_total _ _

theorem semverR_trans {a b c : String} (h1 : semverR a b) (h2 : semverR b c) :
    semverR a c := svleO_trans h1 h2

instance : IsTotal String semverR := ⟨semverR_total⟩
instance : IsTrans String semverR := ⟨fun _ _ _ => semverR_trans⟩

/-- Modelled from the spec: `Utils.semver_sort` sorts the qualifying
(parsable) version strings in ascending semantic-version order, dropping
versions that do not qualify. -/
def Utils.semver_sort (l : List String) : List String :=
  List.insertionSort semverR (l.filter qualifies)

/-- One package document as held in memory by `storage.js`.  The fields
`uplinks`, `distfiles` and `attachments` model the `_uplinks`, `_distfiles`
and `_attachments` keys; `none` means the key is absent.  `extra` carries any
other top-level keys (relevant only to the output-whitelist step). -/
structure PkgDoc where
  name : String
  versions : List (String × VObj)
  distTags : List (String × TagVal)
  readme : Option String
  rev : Option String
  uplinks : Option (List (String × SyncRec))
  distfiles : Option (List (String × String))
  attachments : Option (List (String × VObj))
  extra : List (String × VObj)
deriving DecidableEq, Repr

/-- The configuration bits `storage.js` consults. -/
structure Config where
  ignoreLatestTag : Bool
deriving DecidableEq, Repr

/-- Top-level keys of a document (`for (var i in result)`). -/
def PkgDoc.keys (d : PkgDoc) : List String :=
  ["name", "versions", "dist-tags"]
  ++ (match d.readme with | some _ => ["readme"] | none => [])
  ++ (match d.rev with | some _ => ["_rev"] | none => [])
  ++ (match d.uplinks with | some _ => ["_uplinks"] | none => [])
  ++ (match d.distfiles with | some _ => ["_distfiles"] | none => [])
  ++ (match d.attachments with | some _ => ["_attachments"] | none => [])
  ++ d.extra.map Prod.fst

/-- JS `x == null` on a property read: absent key or stored `null`. -/
def isNullish : Option VObj → Bool
  | none => true
  | some .vnull => true
  | some (.vdata _) => false

/-- One iteration of the version-copy loop of `Storage._merge_versions`:
`if (local.versions[i] == null) local.versions[i] = up.versions[i]`. -/
def versStep (vs : List (String × VObj)) (p : String × VObj) : List (String × VObj) :=
  if isNullish (lookupA vs p.1) then insertA vs p.1 p.2 else vs

/-- The candidate version strings carried by one remote dist-tag value. -/
def tagCandidates : TagVal → List String
  | .str s => [s]
  | .list l => l

/-- Add one qualifying candidate to the current tag value: a fresh tag becomes
a scalar; a differing scalar becomes a two-element tie-break list; a list
grows by ordered insertion.  The `Bool` records whether anything changed. -/
def addCand (p : Option TagVal × Bool) (s : String) : Option TagVal × Bool :=
  match p.1 with
  | none => (some (.str s), true)
  | some (.str s0) =>
      if s = s0 then p else (some (.list (List.orderedInsert semverR s [s0])), true)
  | some (.list l) =>
      if s ∈ l then p else (some (.list (List.orderedInsert semverR s l)), true)

/-- Fold all qualifying candidates of a remote tag value into the current
local value. -/
def tag_apply (cur : Option TagVal) (cand : TagVal) : Option TagVal × Bool :=
  ((tagCandidates cand).filter qualifies).foldl addCand (cur, false)

/-- Modelled from the spec: `Utils.tag_version` (from the absent
`lib/utils.js`) reconciles one remote dist-tag into the local document.  Per
the spec it collects differing candidates into an ordered (ascending
semantic-version) tie-break list rather than overwriting, contributes nothing
when no candidate qualifies as a semantic version, and reports whether the
tag's value was updated.  The spec assigns `config` no role during per-tag
reconciliation (ignore-latest is applied in `get_package` post-processing). -/
def Utils.tag_version (d : PkgDoc) (cand : TagVal) (tag : String) (config : Config) :
    PkgDoc × Bool :=
  match tag_apply (lookupA d.distTags tag) cand with
  | (some v, true) => ({ d with distTags := insertA d.distTags tag v }, true)
  | _ => (d, false)

/-- One iteration of the dist-tag loop of `Storage._merge_versions`,
including the `latest`-readme borrow. -/
def tagMergeStep (config : Config) (upReadme : Option String)
    (d : PkgDoc) (p : String × TagVal) : PkgDoc :=
  match Utils.tag_version d p.2 p.1 config with
  | (d2, added) => if p.1 = "latest" && added then { d2 with readme := upReadme } else d2

/-- `Storage._merge_versions(local, up, config)`: copy remote versions whose
key reads as `null` locally, then reconcile every remote dist-tag, borrowing
the remote readme when `latest` was updated. -/
def Storage._merge_versions (loc up : PkgDoc) (config : Config) : PkgDoc :=
  let l1 := { loc with versions := up.versions.foldl versStep loc.versions }
  up.distTags.foldl (tagMergeStep config up.readme) l1

/-- The answer of one uplink's `get_package` for this pass: success with a
document and an optional etag, an error object, or no error and no data. -/
inductive UpResponse where
  | ok (doc : PkgDoc) (etag : Option String)
  | fail (e : ErrObj)
  | nodata
deriving DecidableEq, Repr

/-- One configured uplink, with its scripted answer for this pass (the uplink
client is an external collaborator; its behaviour is an input). -/
structure Uplink where
  upname : String
  maxage : Int
  resp : UpResponse
deriving DecidableEq, Repr

/-- The mutable state threaded through one `_sync_package_with_uplinks` pass:
the working document, the `exists` flag, the positional per-uplink outcome
list (`none` = success or skip, like `undefined` in `err_results`), and the
names of uplinks whose `get_package` was actually invoked (the observable
network calls). -/
structure SyncSt where
  doc : PkgDoc
  found : Bool
  errs : List (Option ErrObj)
  called : List String
deriving DecidableEq, Repr

/-- Read `pkginfo._uplinks` (the local store guarantees the key on its
documents; the skeleton carries it as well). -/
def getUplinks (d : PkgDoc) : List (String × SyncRec) := d.uplinks.getD []

/-- Write `pkginfo._uplinks[name] = rec`. -/
def setUplinkRec (d : PkgDoc) (n : String) (r : SyncRec) : PkgDoc :=
  { d with uplinks := some (insertA (getUplinks d) n r) }

/-- The freshness test `fetched && fetched > (Date.now() - up.maxage)`;
`fetched` is truthy when present and nonzero. -/
def is_fresh (rec : Option SyncRec) (now maxage : Int) : Bool :=
  match rec with
  | some r =>
      match r.fetched with
      | some t => decide (t ≠ 0) && decide (t > now - maxage)
      | none => false
  | none => false

def errNoData : ErrObj := { status := some 500, msg := "no data" }
def errValidation : ErrObj := { status := none, msg := "bad metadata" }
def err404pkg : ErrObj := { status := some 404, msg := "no such package available" }
def err409 : ErrObj := { status := some 409, msg := "this package is already present" }
def err503 : ErrObj :=
  { status := some 503, msg := "one of the uplinks is down, refuse to publish" }

/-- Modelled from the spec: `Utils.validate_metadata` checks the structural
integrity of a remote document (name match, versions well-formed).  The
document types already enforce the shape, so the check reduces to the name
comparison; its failure is an assertion error without a status. -/
def Utils.validate_metadata (d : PkgDoc) (name : String) : Bool := d.name = name

/-- Processing of one uplink inside `_sync_package_with_uplinks`: skip if the
cache record is fresh; on a 304 error refresh only `fetched` on the existing
record (a 304 without a record is the JS `TypeError`, modelled as `none`); on
any other error or missing data record the error and leave the document
alone; on a valid response refresh the record, merge, and mark existence.
(`Storage._merge_versions` is total here, so the JS `try/catch` around it has
no failing branch.) -/
def syncStep (name : String) (config : Config) (now : Int)
    (st : SyncSt) (u : Uplink) : Option SyncSt :=
  let rec0 := lookupA (getUplinks st.doc) u.upname
  if is_fresh rec0 now u.maxage then
    some { st with errs := st.errs ++ [none] }
  else
    let st1 := { st with called := st.called ++ [u.upname] }
    match u.resp with
    | .fail e =>
        if e.status = some 304 then
          match rec0 with
          | some r =>
              some { st1 with
                       doc := setUplinkRec st1.doc u.upname { r with fetched := some now },
                       errs := st1.errs ++ [some e] }
          | none => none
        else some { st1 with errs := st1.errs ++ [some e] }
    | .nodata => some { st1 with errs := st1.errs ++ [some errNoData] }
    | .ok d etag2 =>
        if Utils.validate_metadata d name then
          let doc1 := setUplinkRec st1.doc u.upname { etag := etag2, fetched := some now }
          some { st1 with
                   doc := Storage._merge_versions doc1 d config,
                   found := true,
                   errs := st1.errs ++ [none] }
        else some { st1 with errs := st1.errs ++ [some errValidation] }

/-- The empty working document built when no local seed is given. -/
def skeleton (name : String) : PkgDoc :=
  { name := name, versions := [], distTags := [], readme := none, rev := none,
    uplinks := some [], distfiles := none, attachments := none, extra := [] }

/-- The whole uplink pass of `_sync_package_with_uplinks`: filter the
configured uplinks through the access policy and process each (the JS fan-out
is concurrent, but per-uplink effects are disjoint and the freshness checks
run synchronously before any response arrives, so the pass is modelled in the
configured order). -/
def syncRun (name : String) (seed : Option PkgDoc) (ups : List Uplink)
    (policy : String → Bool) (config : Config) (now : Int) : Option SyncSt :=
  let st0 : SyncSt :=
    { doc := seed.getD (skeleton name), found := seed.isSome, errs := [], called := [] }
  (ups.filter (fun u => policy u.upname)).foldlM (syncStep name config now) st0

/-- `Storage.prototype._sync_package_with_uplinks`: run the pass, then fail
with 404 when existence was never confirmed, otherwise persist and return the
merged document (`local.update_versions` is modelled as successful identity
persistence).  The per-uplink outcome list is returned either way. -/
def Storage._sync_package_with_uplinks (name : String) (seed : Option PkgDoc)
    (ups : List Uplink) (policy : String → Bool) (config : Config) (now : Int) :
    Option (Except ErrObj PkgDoc × List (Option ErrObj)) :=
  (syncRun name seed ups policy config now).map (fun st =>
    if st.found then (.ok st.doc, st.errs) else (.error err404pkg, st.errs))

/-- The outcome of `Storage.prototype.add_package`: either `local.add_package`
was invoked (`published`) or the operation failed with an error. -/
inductive AddOutcome where
  | published
  | failed (e : ErrObj)
deriving DecidableEq, Repr

/-- The loop over `err_results` in `add_package`'s remote check: the first
entry holding an error with a status other than 404 refuses publication;
reading a success/skip entry (`undefined[0]`) would be a JS `TypeError`,
modelled as `none` (unreachable from `add_package`, which only runs the loop
when no uplink confirmed existence and nothing was skipped). -/
def check_err_results : List (Option ErrObj) → Option Bool
  | [] => some true
  | some er :: t => if er.status ≠ some 404 then some false else check_err_results t
  | none :: _ => none

/-- `Storage.prototype.add_package(name, metadata)`: local existence check,
then remote existence check through an unseeded sync pass, then publish.
`localResp` is the local store's answer to `get_package(name)`. -/
def Storage.add_package (name : String) (localResp : Except ErrObj PkgDoc)
    (ups : List Uplink) (policy : String → Bool) (config : Config) (now : Int) :
    Option AddOutcome :=
  match localResp with
  | .ok _ => some (.failed err409)
  | .error e =>
      if e.status ≠ some 404 then some (.failed e)
      else
        match Storage._sync_package_with_uplinks name none ups policy config now with
        | none => none
        | some (.ok _, _) => some (.failed err409)
        | some (.error e2, errs) =>
            if e2.status ≠ some 404 then some (.failed e2)
            else
              match check_err_results errs with
              | none => none
              | some false => some (.failed err503)
              | some true => some .published

/-- Whitelist projection of `get_package`: delete every top-level key not in
`[_rev, name, versions, dist-tags, readme]`. -/
def strip (d : PkgDoc) : PkgDoc :=
  { d with uplinks := none, distfiles := none, attachments := none, extra := [] }

/-- JS truthiness of a `dist-tags` value read (`!result['dist-tags'].latest`):
absent or empty string is falsy; an array is always truthy. -/
def tag_falsy : Option TagVal → Bool
  | none => true
  | some (.str s) => s = ""
  | some (.list _) => false

/-- The `latest` recomputation of `get_package`: when configured to ignore
upstream's `latest` or when `latest` is falsy, assign the full
semver-sorted array of version keys (collapsed by the next step). -/
def withLatest (config : Config) (d : PkgDoc) : PkgDoc :=
  if config.ignoreLatestTag || tag_falsy (lookupA d.distTags "latest") then
    { d with distTags :=
        insertA d.distTags "latest" (.list (Utils.semver_sort (keysA d.versions))) }
  else d

/-- The tag-collapse loop of `get_package`: a still-list-valued tag becomes
its last element; the key is deleted when that element is nullish (i.e. the
list is empty). -/
def collapseTags : List (String × TagVal) → List (String × TagVal) :=
  List.filterMap (fun p =>
    match p.2 with
    | .str s => some (p.1, .str s)
    | .list l =>
        match l.getLast? with
        | some s => some (p.1, .str s)
        | none => none)

/-- The post-processing of a merged document in `get_package`: whitelist
projection, `latest` recomputation, tag collapse, and `_attachments` reset. -/
def postprocess (config : Config) (d : PkgDoc) : PkgDoc :=
  let d2 := withLatest config (strip d)
  { d2 with distTags := collapseTags d2.distTags, attachments := some [] }

/-- The local-error gate of `get_package`: abort on an error whose status is
falsy (absent or 0) or at least 500. -/
def local_abort (e : ErrObj) : Bool :=
  match e.status with
  | none => true
  | some s => decide (s = 0) || decide (s ≥ 500)

/-- Wrap a sync result for `get_package`'s caller. -/
def postpack (config : Config) :
    Except ErrObj PkgDoc × List (Option ErrObj) →
    Except ErrObj (PkgDoc × List (Option ErrObj))
  | (.error e, _) => .error e
  | (.ok doc, errs) => .ok (postprocess config doc, errs)

/-- `Storage.prototype.get_package(name, options)`: read the local copy,
abort on an internal local error, otherwise sync with the uplinks (seeding
with the local document when one was returned) and post-process. -/
def Storage.get_package (name : String) (localResp : Except ErrObj PkgDoc)
    (ups : List Uplink) (policy : String → Bool) (config : Config) (now : Int) :
    Option (Except ErrObj (PkgDoc × List (Option ErrObj))) :=
  match localResp with
  | .error e =>
      if local_abort e then some (.error e)
      else
        (Storage._sync_package_with_uplinks name none ups policy config now).map
          (postpack config)
  | .ok d =>
      (Storage._sync_package_with_uplinks name (some d) ups policy config now).map
        (postpack config)

theorem keysA_cons {α : Type} (p : String × α) (t : List (String × α)) :
    keysA (p :: t) = p.1 :: keysA t := rfl

theorem keysA_insertA {α : Type} (l : List (String × α)) (k : String) (v : α) :
    keysA (insertA l k v) = if k ∈ keysA l then keysA l else keysA l ++ [k] := by
  induction l with
  | nil => simp [insertA, keysA]
  | cons p t ih =>
      obtain ⟨k0, v0⟩ := p
      by_cases h : k0 = k
      · subst h; simp [insertA, keysA_cons]
      · have hne : ¬ (k = k0) := fun h2 => h h2.symm
        by_cases hm : k ∈ keysA t
        · simp [insertA, h, keysA_cons, ih, hm, hne]
        · simp [insertA, h, keysA_cons, ih, hm, hne]

theorem keysA_insertA_mem {α : Type} {l : List (String × α)} {k2 : String} (k : String)
    (v : α) (h : k2 ∈ keysA l) : k2 ∈ keysA (insertA l k v) := by
  rw [keysA_insertA]; split_ifs with h2
  · exact h
  · exact List.mem_append_left _ h

theorem keysA_insertA_self {α : Type} (l : List (String × α)) (k : String) (v : α) :
    k ∈ keysA (insertA l k v) := by
  rw [keysA_insertA]; split_ifs with h2
  · exact h2
  · simp

theorem keysA_insertA_sub {α : Type} {l : List (String × α)} {k k2 : String} {v : α}
    (h : k2 ∈ keysA (insertA l k v)) : k2 ∈ keysA l ∨ k2 = k := by
  rw [keysA_insertA] at h; split_ifs at h with h2
  · exact Or.inl h
  · rcases List.mem_append.1 h with h3 | h3
    · exact Or.inl h3
    · exact Or.inr (by simpa using h3)

theorem keysA_nodup_insertA {α : Type} (l : List (String × α)) (k : String) (v : α)
    (h : (keysA l).Nodup) : (keysA (insertA l k v)).Nodup := by
  rw [keysA_insertA]; split_ifs with h2
  · exact h
  · simp [List.nodup_append, h, h2]

theorem lookupA_insertA_self {α : Type} (l : List (String × α)) (k : String) (v : α) :
    lookupA (insertA l k v) k = some v := by
  induction l with
  | nil => simp [insertA, lookupA]
  | cons p t ih =>
      obtain ⟨k0, v0⟩ := p
      by_cases h : k0 = k
      · simp [insertA, h, lookupA]
      · simp [insertA, h, lookupA, ih]

theorem lookupA_insertA_ne {α : Type} (l : List (String × α)) (k k2 : String) (v : α)
    (h : k ≠ k2) : lookupA (insertA l k v) k2 = lookupA l k2 := by
  induction l with
  | nil => simp [insertA, lookupA, h]
  | cons p t ih =>
      obtain ⟨k0, v0⟩ := p
      by_cases h2 : k0 = k
      · subst h2; simp [insertA, lookupA, h]
      · simp [insertA, h2, lookupA, ih]

theorem insertA_self {α : Type} {l : List (String × α)} {k : String} {v : α}
    (h : lookupA l k = some v) : insertA l k v = l := by
  induction l with
  | nil => simp [lookupA] at h
  | cons p t ih =>
      obtain ⟨k0, v0⟩ := p
      by_cases h2 : k0 = k
      · subst h2
        simp [lookupA] at h
        simp [insertA, h]
      · simp [lookupA, h2] at h
        simp [insertA, h2, ih h]

theorem lookupA_mem {α : Type} {l : List (String × α)} {k : String} {v : α}
    (h : lookupA l k = some v) : (k, v) ∈ l := by
  induction l with
  | nil => simp [lookupA] at h
  | cons p t ih =>
      obtain ⟨k0, v0⟩ := p
      by_cases h2 : k0 = k
      · subst h2
        simp [lookupA] at h
        subst h
        exact List.mem_cons_self _ _
      · simp [lookupA, h2] at h
        exact List.mem_cons_of_mem _ (ih h)

theorem lookupA_eq_none_iff {α : Type} (l : List (String × α)) (k : String) :
    lookupA l k = none ↔ k ∉ keysA l := by
  induction l with
  | nil => simp [lookupA, keysA]
  | cons p t ih =>
      obtain ⟨k0, v0⟩ := p
      by_cases h2 : k0 = k
      · subst h2; simp [lookupA, keysA_cons]
      · have h3 : ¬ (k = k0) := fun h4 => h2 h4.symm
        simp [lookupA, h2, keysA_cons, ih, h3]

/-- An uplink as seen by `serve_file` (only its name and URL predicate
matter for uplink selection). -/
structure UpSrv where
  upname : String
  can_fetch_url : String → Bool

/-- The serving source chosen by `serve_file`: a configured uplink, or a
throwaway uplink synthesized for exactly the given URL. -/
inductive Pick where
  | configured (upname : String)
  | synthesized (url : String)
deriving DecidableEq, Repr

/-- The uplink-selection loop of `serve_file` inside `get_tarball`: iterate
all configured uplinks, remembering every one whose `can_fetch_url(url)`
holds (the loop has no break), and synthesize a throwaway uplink bound to the
URL when none matched. -/
def serve_file_choose (ups : List UpSrv) (url : String) : Pick :=
  match ups.foldl (fun acc u => if u.can_fetch_url url then some u.upname else acc) none with
  | some n => .configured n
  | none => .synthesized url

/-- The claim as stated: the first matching uplink in configured order is
selected, and a throwaway uplink is synthesized only when none matches. -/
def ServeFileFirstMatchClaim : Prop :=
  ∀ (ups : List UpSrv) (url : String),
    serve_file_choose ups url =
      match ups.find? (fun u => u.can_fetch_url url) with
      | some u => .configured u.upname
      | none => .synthesized url

theorem last_match_foldl (p : UpSrv → Bool) (ups : List UpSrv) :
    ∀ acc : Option String,
      ups.foldl (fun acc u => if p u then some u.upname else acc) acc =
        match (ups.filter p).getLast? with
        | some u => some u.upname
        | none => acc := by
  induction ups with
  | nil => intro acc; rfl
  | cons u t ih =>
      intro acc
      by_cases hc : p u
      · simp only [List.foldl_cons]
        rw [if_pos hc, ih (some u.upname), List.filter_cons_of_pos hc]
        cases hft : (t.filter p) with
        | nil => simp
        | cons w t2 =>
            rw [List.getLast?_cons_cons]
            cases h5 : (w :: t2).getLast? with
            | none => simp at h5
            | some x => rfl
      · simp only [List.foldl_cons]
        rw [if_neg hc, ih acc, List.filter_cons_of_neg hc]

/-- C6: the claim says `serve_file` picks the FIRST configured uplink whose
`can_fetch_url` matches.  The selection loop in the source keeps overwriting
its `uplink` variable without breaking, so with two matching uplinks the
second (last) one is chosen, refuting the claim. -/
theorem serve_file_first_match_false : ¬ ServeFileFirstMatchClaim := fun h =>
  absurd (h [⟨"a", fun _ => true⟩, ⟨"b", fun _ => true⟩] "u") (by decide)

/-- C6 (amended): in `get_tarball`'s remote-fallback path the LAST configured
uplink whose `can_fetch_url(url)` predicate holds is selected, and a
throwaway uplink bound to that exact URL is synthesized only when no
configured uplink matches. -/
theorem serve_file_last_match (ups : List UpSrv) (url : String) :
    serve_file_choose ups url =
      match (ups.filter (fun u => u.can_fetch_url url)).getLast? with
      | some u => .configured u.upname
      | none => .synthesized url := by
  unfold serve_file_choose
  rw [last_match_foldl (fun u => u.can_fetch_url url) ups none]
  cases (ups.filter (fun u => u.can_fetch_url url)).getLast? <;> rfl

/-- A local read-stream event observed by `get_tarball`: the `open` event,
a data notification, or an `error` event. -/
inductive LEvent where
  | opened
  | chunk
  | failed (e : ErrObj)
deriving DecidableEq, Repr

/-- The disposition of `get_tarball`'s output stream after the local-read
phase. -/
inductive TOut where
  | waiting
  | streaming
  | propagated (e : ErrObj)
  | fallback (e : ErrObj)
deriving DecidableEq, Repr

/-- The local-read phase of `Storage.prototype.get_tarball`: `is_open` is set
by the local stream's `open` event; the error handler re-emits the error
as-is when the stream had already opened or the error is not a 404, and only
otherwise enters the remote-fallback path (keeping the 404 error for a
possible later re-emission). -/
def get_tarball_local : List LEvent → Bool → TOut
  | [], is_open => if is_open then .streaming else .waiting
  | .opened :: evs, _ => get_tarball_local evs true
  | .chunk :: evs, o => get_tarball_local evs o
  | .failed e :: _, is_open =>
      if is_open ∨ e.status ≠ some 404 then .propagated e else .fallback e

theorem get_tarball_local_open_propagates (e : ErrObj) :
    ∀ (pre post : List LEvent), (∀ e2, LEvent.failed e2 ∉ pre) →
      get_tarball_local (pre ++ LEvent.failed e :: post) true = .propagated e := by
  intro pre
  induction pre with
  | nil => intro post h; simp [get_tarball_local]
  | cons x t ih =>
      intro post h
      cases x with
      | opened =>
          simp only [List.cons_append, get_tarball_local]
          exact ih post (fun e2 h2 => h e2 (List.mem_cons_of_mem _ h2))
      | chunk =>
          simp only [List.cons_append, get_tarball_local]
          exact ih post (fun e2 h2 => h e2 (List.mem_cons_of_mem _ h2))
      | failed e2 => exact absurd (List.mem_cons_self _ _) (h e2)

theorem get_tarball_local_fallback_inv :
    ∀ (evs : List LEvent) (o : Bool) (e : ErrObj),
      get_tarball_local evs o = .fallback e →
      o = false ∧ e.status = some 404 ∧
        ∃ pre post, evs = pre ++ LEvent.failed e :: post ∧ LEvent.opened ∉ pre := by
  intro evs
  induction evs with
  | nil => intro o e h; cases o <;> simp [get_tarball_local] at h
  | cons x t ih =>
      intro o e h
      cases x with
      | opened =>
          simp only [get_tarball_local] at h
          exact absurd (ih true e h).1 (by simp)
      | chunk =>
          simp only [get_tarball_local] at h
          obtain ⟨ho, hs, pre, post, heq, hop⟩ := ih o e h
          refine ⟨ho, hs, .chunk :: pre, post, ?_, ?_⟩
          · rw [List.cons_append, heq]
          · simp [hop]
      | failed e2 =>
          simp only [get_tarball_local] at h
          split_ifs at h with hcond
          push_neg at hcond
          have he : e2 = e := by injection h
          refine ⟨by simpa using hcond.1, he ▸ hcond.2, [], t, by simp [he], by simp⟩

/-- C9: in `get_tarball`, once the local read stream has emitted `open`, any
subsequent error on it is propagated unchanged to the output stream and no
remote fallback is attempted; the remote fallback runs only when the local
read fails with a 404 before opening. -/
theorem get_tarball_local_errors :
    (∀ (pre post : List LEvent) (e : ErrObj),
        LEvent.opened ∈ pre → (∀ e2, LEvent.failed e2 ∉ pre) →
        get_tarball_local (pre ++ LEvent.failed e :: post) false = .propagated e)
    ∧ (∀ (evs : List LEvent) (e : ErrObj),
        get_tarball_local evs false = .fallback e →
        e.status = some 404 ∧
          ∃ pre post, evs = pre ++ LEvent.failed e :: post ∧ LEvent.opened ∉ pre) := by
  constructor
  · intro pre
    induction pre with
    | nil => intro post e hmem _; simp at hmem
    | cons x t ih =>
        intro post e hmem hnf
        cases x with
        | opened =>
            simp only [List.cons_append, get_tarball_local]
            exact get_tarball_local_open_propagates e t post
              (fun e2 h2 => hnf e2 (List.mem_cons_of_mem _ h2))
        | chunk =>
            simp only [List.cons_append, get_tarball_local]
            refine ih post e ?_ (fun e2 h2 => hnf e2 (List.mem_cons_of_mem _ h2))
            rcases List.mem_cons.1 hmem with h3 | h3
            · exact absurd h3 (by simp)
            · exact h3
        | failed e2 => exact absurd (List.mem_cons_self _ _) (hnf e2)
  · intro evs e h
    exact ((get_tarball_local_fallback_inv evs false e h).2)

/-- Witness for C9 at concrete inputs: an error after `open` (even a 404) is
propagated unchanged, and a concrete fallback run certifies the
fallback-only-on-early-404 direction. -/
theorem get_tarball_local_errors_witness :
    get_tarball_local [LEvent.opened, LEvent.failed ⟨some 404, "gone"⟩] false
        = TOut.propagated ⟨some 404, "gone"⟩
    ∧ (⟨some 404, "nope"⟩ : ErrObj).status = some 404 := by
  constructor
  · exact get_tarball_local_errors.1 [LEvent.opened] [] ⟨some 404, "gone"⟩
      (List.mem_cons_self _ _) (fun e2 h2 => by simp at h2)
  · exact (get_tarball_local_errors.2 [LEvent.failed ⟨some 404, "nope"⟩]
      ⟨some 404, "nope"⟩ (by decide)).1

/-- The `latest` resolution inside `get_local`: a list-valued `latest` tag is
semver-sorted and its last element popped; the resulting version string must
name a truthy (non-null) version body, otherwise the package only earns a
warning. -/
def latest_version_obj (d : PkgDoc) : Option VObj :=
  let latest : Option String :=
    match lookupA d.distTags "latest" with
    | none => none
    | some (.str s) => some s
    | some (.list l) => (Utils.semver_sort l).getLast?
  match latest with
  | none => none
  | some s =>
      match lookupA d.versions s with
      | some v => if v = .vnull then none else some v
      | none => none

/-- The sequential per-package loop of `Storage.prototype.get_local`: each
package name is looked up in the local store (its answer is the paired
`Except`); errors are skipped silently, packages whose `latest` does not
resolve are skipped with a warning, and the loop always ends by calling the
callback with a null error.  (The JS loop recurses on an index and returns
from the last iteration; on a nonempty list that is the same recursion, and
the empty list also yields `callback(null, [])`.) -/
def get_local_go : List (String × Except ErrObj PkgDoc) → List VObj → List String →
    Option ErrObj × List VObj × List String
  | [], acc, warns => (none, acc, warns)
  | (n, r) :: rest, acc, warns =>
      match r with
      | .error _ => get_local_go rest acc warns
      | .ok d =>
          match latest_version_obj d with
          | some v => get_local_go rest (acc ++ [v]) warns
          | none => get_local_go rest acc (warns ++ [n])

/-- `Storage.prototype.get_local()`: result is (error handed to the callback,
collected latest-version objects, names warned about). -/
def Storage.get_local (resps : List (String × Except ErrObj PkgDoc)) :
    Option ErrObj × List VObj × List String :=
  get_local_go resps [] []

theorem get_local_go_spec :
    ∀ (resps : List (String × Except ErrObj PkgDoc)) (acc : List VObj) (warns : List String),
      get_local_go resps acc warns =
        (none,
         acc ++ resps.filterMap (fun p => match p.2 with
           | .ok d => latest_version_obj d
           | .error _ => none),
         warns ++ resps.filterMap (fun p => match p.2 with
           | .ok d => match latest_version_obj d with | some _ => none | none => some p.1
           | .error _ => none)) := by
  intro resps
  induction resps with
  | nil => intro acc warns; simp [get_local_go]
  | cons p rest ih =>
      intro acc warns
      obtain ⟨n, r⟩ := p
      cases r with
      | error e => simp [get_local_go, ih, List.filterMap_cons]
      | ok d =>
          cases hl : latest_version_obj d with
          | some v => simp [get_local_go, hl, ih, List.filterMap_cons]
          | none => simp [get_local_go, hl, ih, List.filterMap_cons]

/-- C10: `get_local` never surfaces an error: the callback always receives a
null error; every package whose local fetch errored is silently omitted (it
appears neither in the result nor among the warned names) and iteration
continues; the result is exactly the list of latest-version objects of the
packages that loaded successfully (and resolved a latest version), in order. -/
theorem get_local_never_errors (resps : List (String × Except ErrObj PkgDoc)) :
    Storage.get_local resps =
      (none,
       resps.filterMap (fun p => match p.2 with
         | .ok d => latest_version_obj d
         | .error _ => none),
       resps.filterMap (fun p => match p.2 with
         | .ok d => match latest_version_obj d with | some _ => none | none => some p.1
         | .error _ => none)) := by
  unfold Storage.get_local
  rw [get_local_go_spec]
  simp

theorem versFold_keeps_nonnull :
    ∀ (l : List (String × VObj)) (vs : List (String × VObj)) (v : String) (w : VObj),
      lookupA vs v = some w → w ≠ .vnull →
      lookupA (l.foldl versStep vs) v = some w := by
  intro l
  induction l with
  | nil => intro vs v w h _; simpa using h
  | cons p t ih =>
      intro vs v w h hnn
      obtain ⟨k, vl⟩ := p
      rw [List.foldl_cons]
      by_cases hk : k = v
      · subst hk
        have : versStep vs (k, vl) = vs := by
          unfold versStep
          simp [h]
          cases w with
          | vnull => exact absurd rfl hnn
          | vdata s => simp [isNullish]
        rw [this]
        exact ih vs k w h hnn
      · have : lookupA (versStep vs (k, vl)) v = some w := by
          unfold versStep
          split_ifs with h2
          · rw [lookupA_insertA_ne _ _ _ _ hk]
            exact h
          · exact h
        exact ih _ v w this hnn

theorem versFold_keeps_some :
    ∀ (l : List (String × VObj)) (vs : List (String × VObj)) (v : String) (w : VObj),
      lookupA vs v = some w →
      ∃ w2, lookupA (l.foldl versStep vs) v = some w2 := by
  intro l
  induction l with
  | nil => intro vs v w h; exact ⟨w, by simpa using h⟩
  | cons p t ih =>
      intro vs v w h
      obtain ⟨k, vl⟩ := p
      rw [List.foldl_cons]
      by_cases hk : k = v
      · subst hk
        unfold versStep
        split_ifs with h2
        · exact ih _ k vl (lookupA_insertA_self _ _ _)
        · exact ih _ k w h
      · unfold versStep
        split_ifs with h2
        · refine ih _ v w ?_
          rw [lookupA_insertA_ne _ _ _ _ hk]
          exact h
        · exact ih _ v w h

/-- Every entry of the copied list ends up present in the folded versions
map, and can only read as `null` if the entry's own value was `null`. -/
theorem versFold_entry_inv :
    ∀ (l : List (String × VObj)) (vs : List (String × VObj)) (k : String) (vl : VObj),
      (k, vl) ∈ l →
      ∃ w, lookupA (l.foldl versStep vs) k = some w ∧ (w = .vnull → vl = .vnull) := by
  intro l
  induction l with
  | nil => intro vs k vl h; simp at h
  | cons p t ih =>
      intro vs k vl h
      obtain ⟨k0, v0⟩ := p
      rcases List.mem_cons.1 h with h2 | h2
      · injection h2 with hk hv
        subst hk; subst hv
        rw [List.foldl_cons]
        by_cases h3 : isNullish (lookupA vs k) = true
        · have hstep : versStep vs (k, vl) = insertA vs k vl := by
            unfold versStep; rw [if_pos h3]
          rw [hstep]
          by_cases hv0 : vl = .vnull
          · obtain ⟨w2, hw2⟩ := versFold_keeps_some t (insertA vs k vl) k vl
              (lookupA_insertA_self vs k vl)
            exact ⟨w2, hw2, fun _ => hv0⟩
          · refine ⟨vl, ?_, fun h4 => absurd h4 hv0⟩
            exact versFold_keeps_nonnull t (insertA vs k vl) k vl
              (lookupA_insertA_self vs k vl) hv0
        · have hstep : versStep vs (k, vl) = vs := by
            unfold versStep; rw [if_neg h3]
          rw [hstep]
          cases hvs : lookupA vs k with
          | none => rw [hvs] at h3; simp [isNullish] at h3
          | some w =>
              cases w with
              | vnull => rw [hvs] at h3; simp [isNullish] at h3
              | vdata s =>
                  refine ⟨.vdata s, ?_, fun h4 => absurd h4 (by simp)⟩
                  exact versFold_keeps_nonnull t vs k _ hvs (by simp)
      · rw [List.foldl_cons]
        exact ih _ k vl h2

/-- A fold whose every entry is already satisfied (present non-null, or
present as `null` with a `null` entry value) changes nothing. -/
theorem versFold_noop :
    ∀ (l : List (String × VObj)) (vs : List (String × VObj)),
      (∀ k vl, (k, vl) ∈ l →
        ∃ w, lookupA vs k = some w ∧ (w = .vnull → vl = .vnull)) →
      l.foldl versStep vs = vs := by
  intro l
  induction l with
  | nil => intro vs _; rfl
  | cons p t ih =>
      intro vs h
      obtain ⟨k0, v0⟩ := p
      obtain ⟨w, hw, himp⟩ := h k0 v0 (List.mem_cons_self _ _)
      have hstep : versStep vs (k0, v0) = vs := by
        unfold versStep
        cases w with
        | vnull =>
            rw [himp rfl]
            rw [hw]
            simp [isNullish]
            exact insertA_self hw
        | vdata s => rw [hw]; simp [isNullish]
      rw [List.foldl_cons, hstep]
      exact ih vs (fun k vl h2 => h k vl (List.mem_cons_of_mem _ h2))

theorem versFold_idem (l : List (String × VObj)) (vs : List (String × VObj)) :
    l.foldl versStep (l.foldl versStep vs) = l.foldl versStep vs :=
  versFold_noop l _ (fun k vl h => versFold_entry_inv l vs k vl h)

theorem tag_version_cases (d : PkgDoc) (cand : TagVal) (tag : String) (config : Config) :
    Utils.tag_version d cand tag config = (d, false) ∨
    ∃ v, tag_apply (lookupA d.distTags tag) cand = (some v, true) ∧
      Utils.tag_version d cand tag config
        = ({ d with distTags := insertA d.distTags tag v }, true) := by
  unfold Utils.tag_version
  rcases hta : tag_apply (lookupA d.distTags tag) cand with ⟨val, changed⟩
  cases val with
  | none => cases changed <;> simp
  | some v =>
      cases changed with
      | false => simp
      | true => exact Or.inr ⟨v, rfl, by simp⟩

theorem tagMergeStep_shape (config : Config) (r : Option String) (d : PkgDoc)
    (p : String × TagVal) :
    ∃ dt rm, tagMergeStep config r d p = { d with distTags := dt, readme := rm } := by
  unfold tagMergeStep
  rcases tag_version_cases d p.2 p.1 config with h | ⟨v, _, h⟩
  · rw [h]
    exact ⟨d.distTags, d.readme, by simp⟩
  · rw [h]
    by_cases hl : p.1 = "latest"
    · exact ⟨insertA d.distTags p.1 v, r, by simp [hl]⟩
    · exact ⟨insertA d.distTags p.1 v, d.readme, by simp [hl]⟩

theorem tagFold_shape (config : Config) (r : Option String) :
    ∀ (l : List (String × TagVal)) (d : PkgDoc),
      ∃ dt rm, l.foldl (tagMergeStep config r) d = { d with distTags := dt, readme := rm } := by
  intro l
  induction l with
  | nil => intro d; exact ⟨d.distTags, d.readme, rfl⟩
  | cons p t ih =>
      intro d
      rw [List.foldl_cons]
      obtain ⟨dt1, rm1, h1⟩ := tagMergeStep_shape config r d p
      obtain ⟨dt2, rm2, h2⟩ := ih (tagMergeStep config r d p)
      refine ⟨dt2, rm2, ?_⟩
      rw [h2, h1]

/-- `_merge_versions` only ever touches `versions`, `dist-tags` and `readme`;
in particular its `versions` component is exactly the version-copy fold. -/
theorem merge_versions_shape (loc up : PkgDoc) (config : Config) :
    ∃ dt rm, Storage._merge_versions loc up config =
      { loc with versions := up.versions.foldl versStep loc.versions,
                 distTags := dt, readme := rm } := by
  unfold Storage._merge_versions
  obtain ⟨dt, rm, h⟩ := tagFold_shape config up.readme up.distTags
    { loc with versions := up.versions.foldl versStep loc.versions }
  exact ⟨dt, rm, h⟩

/-- The C2 claim as stated: for every local and remote document, merging
never changes the value stored under any version key already present in
the local document. -/
def MergeNeverOverwritesClaim : Prop :=
  ∀ (loc up : PkgDoc) (config : Config) (v : String) (w : VObj),
    lookupA loc.versions v = some w →
    lookupA (Storage._merge_versions loc up config).versions v = some w

/-- C2 (counterexample): the version-copy loop tests `local.versions[i] ==
null`, which is also true when the key is present with the JS value `null`;
such an existing version key is overwritten by the remote body.  With a local
document holding version 1.0.0 ↦ null and a remote document holding 1.0.0 ↦
an object, the stored value changes, refuting the claim. -/
theorem merge_overwrites_null_version : ¬ MergeNeverOverwritesClaim := by
  intro h
  have h2 := h
    { name := "p", versions := [("1.0.0", .vnull)], distTags := [], readme := none,
      rev := none, uplinks := some [], distfiles := none, attachments := none, extra := [] }
    { name := "p", versions := [("1.0.0", .vdata "remote")], distTags := [], readme := none,
      rev := none, uplinks := some [], distfiles := none, attachments := none, extra := [] }
    ⟨false⟩ "1.0.0" .vnull (by decide)
  exact absurd h2 (by decide)

/-- C2 (amended): `_merge_versions` never replaces the value stored under an
existing version key whose value is non-null; a key that is absent, or
present with the JS value `null` (which `== null` treats as absent), is
filled from the remote document.  Dist-tag reconciliation never touches the
versions map. -/
theorem merge_keeps_nonnull_versions (loc up : PkgDoc) (config : Config)
    (v : String) (w : VObj) (hw : lookupA loc.versions v = some w)
    (hnn : w ≠ .vnull) :
    lookupA (Storage._merge_versions loc up config).versions v = some w := by
  obtain ⟨dt, rm, hshape⟩ := merge_versions_shape loc up config
  rw [hshape]
  exact versFold_keeps_nonnull up.versions loc.versions v w hw hnn

/-- Witness for C2's amended theorem: a concrete non-null local version body
survives a merge with a remote document claiming a different body for the
same version string. -/
theorem merge_keeps_nonnull_versions_witness :
    lookupA (Storage._merge_versions
      { name := "p", versions := [("1.0.0", .vdata "ours")], distTags := [],
        readme := none, rev := none, uplinks := some [], distfiles := none,
        attachments := none, extra := [] }
      { name := "p", versions := [("1.0.0", .vdata "theirs"), ("2.0.0", .vdata "new")],
        distTags := [], readme := none, rev := none, uplinks := some [],
        distfiles := none, attachments := none, extra := [] }
      ⟨false⟩).versions "1.0.0" = some (.vdata "ours") :=
  merge_keeps_nonnull_versions _ _ ⟨false⟩ "1.0.0" (.vdata "ours")
    (by decide) (by decide)

/-- Membership of a version string among the candidates a tag value holds. -/
def memTag (s : String) : Option TagVal → Prop
  | none => False
  | some (.str s0) => s = s0
  | some (.list l) => s ∈ l

theorem memTag_addCand_preserve (p : Option TagVal × Bool) (s s2 : String)
    (h : memTag s2 p.1) : memTag s2 (addCand p s).1 := by
  obtain ⟨cur, fl⟩ := p
  cases cur with
  | none => simp [memTag] at h
  | some tv =>
      cases tv with
      | str s0 =>
          simp [memTag] at h
          by_cases hs : s = s0
          · simp [addCand, hs, memTag, h]
          · simp [addCand, hs, memTag, List.mem_orderedInsert]
            split_ifs <;> simp [h]
      | list l =>
          simp [memTag] at h
          by_cases hs : s ∈ l
          · simp [addCand, hs, memTag, h]
          · simp [addCand, hs, memTag, List.mem_orderedInsert]
            exact Or.inr h

theorem memTag_addCand_self (p : Option TagVal × Bool) (s : String) :
    memTag s (addCand p s).1 := by
  obtain ⟨cur, fl⟩ := p
  cases cur with
  | none => simp [addCand, memTag]
  | some tv =>
      cases tv with
      | str s0 =>
          by_cases hs : s = s0
          · simp [addCand, hs, memTag]
          · simp [addCand, hs, memTag, List.mem_orderedInsert]
            split_ifs <;> simp
      | list l =>
          by_cases hs : s ∈ l
          · simp [addCand, hs, memTag]
          · simp [addCand, hs, memTag, List.mem_orderedInsert]

theorem addCand_noop {p : Option TagVal × Bool} {s : String} (h : memTag s p.1) :
    addCand p s = p := by
  obtain ⟨cur, fl⟩ := p
  cases cur with
  | none => simp [memTag] at h
  | some tv =>
      cases tv with
      | str s0 => simp [memTag] at h; simp [addCand, h]
      | list l => simp [memTag] at h; simp [addCand, h]

theorem addCand_fold_mem (cs : List String) :
    ∀ (p : Option TagVal × Bool),
      (∀ s2, memTag s2 p.1 → memTag s2 (cs.foldl addCand p).1) ∧
      (∀ s ∈ cs, memTag s (cs.foldl addCand p).1) := by
  induction cs with
  | nil => intro p; exact ⟨fun s2 h => h, fun s h => by simp at h⟩
  | cons s0 t ih =>
      intro p
      rw [List.foldl_cons]
      refine ⟨fun s2 h => (ih (addCand p s0)).1 s2 (memTag_addCand_preserve p s0 s2 h), ?_⟩
      intro s hs
      rcases List.mem_cons.1 hs with h2 | h2
      · subst h2
        exact (ih (addCand p s)).1 s (memTag_addCand_self p s)
      · exact (ih (addCand p s0)).2 s h2

theorem addCand_fold_noop (cs : List String) :
    ∀ (p : Option TagVal × Bool), (∀ s ∈ cs, memTag s p.1) →
      cs.foldl addCand p = p := by
  induction cs with
  | nil => intro p _; rfl
  | cons s0 t ih =>
      intro p h
      rw [List.foldl_cons, addCand_noop (h s0 (List.mem_cons_self _ _))]
      exact ih p (fun s hs => h s (List.mem_cons_of_mem _ hs))

theorem tag_apply_noop (cur : Option TagVal) (cand : TagVal)
    (h : ∀ s ∈ (tagCandidates cand).filter qualifies, memTag s cur) :
    tag_apply cur cand = (cur, false) :=
  addCand_fold_noop _ (cur, false) h

theorem tag_apply_mem (cur : Option TagVal) (cand : TagVal) :
    ∀ s ∈ (tagCandidates cand).filter qualifies, memTag s (tag_apply cur cand).1 :=
  (addCand_fold_mem _ (cur, false)).2

theorem tag_apply_preserve (cur : Option TagVal) (cand : TagVal) (s2 : String)
    (h : memTag s2 cur) : memTag s2 (tag_apply cur cand).1 :=
  (addCand_fold_mem _ (cur, false)).1 s2 h

theorem tag_version_noop (d : PkgDoc) (cand : TagVal) (tag : String) (config : Config)
    (h : ∀ s ∈ (tagCandidates cand).filter qualifies, memTag s (lookupA d.distTags tag)) :
    Utils.tag_version d cand tag config = (d, false) := by
  unfold Utils.tag_version
  rw [tag_apply_noop _ _ h]
  cases lookupA d.distTags tag <;> rfl

theorem addCand_flag_or (p : Option TagVal × Bool) (s : String) :
    addCand p s = p ∨ (addCand p s).2 = true := by
  obtain ⟨cur, fl⟩ := p
  cases cur with
  | none => exact Or.inr rfl
  | some tv =>
      cases tv with
      | str s0 =>
          by_cases hs : s = s0
          · exact Or.inl (by simp [addCand, hs])
          · exact Or.inr (by simp [addCand, hs])
      | list l =>
          by_cases hs : s ∈ l
          · exact Or.inl (by simp [addCand, hs])
          · exact Or.inr (by simp [addCand, hs])

theorem foldl_addCand_flag_mono (cs : List String) :
    ∀ (p : Option TagVal × Bool), p.2 = true → (cs.foldl addCand p).2 = true := by
  induction cs with
  | nil => intro p h; exact h
  | cons s0 t ih =>
      intro p h
      rw [List.foldl_cons]
      rcases addCand_flag_or p s0 with h2 | h2
      · rw [h2]; exact ih p h
      · exact ih _ h2

theorem foldl_addCand_false (cs : List String) :
    ∀ (p : Option TagVal × Bool) (v : Option TagVal),
      cs.foldl addCand p = (v, false) → p = (v, false) := by
  induction cs with
  | nil => intro p v h; exact h
  | cons s0 t ih =>
      intro p v h
      rw [List.foldl_cons] at h
      rcases addCand_flag_or p s0 with h2 | h2
      · rw [h2] at h; exact ih p v h
      · have h3 := foldl_addCand_flag_mono t _ h2
        rw [h] at h3
        simp at h3

theorem tag_apply_false_fst {cur : Option TagVal} {cand : TagVal} {v : Option TagVal}
    (h : tag_apply cur cand = (v, false)) : cur = v := by
  have h2 := foldl_addCand_false _ _ _ h
  exact congrArg Prod.fst h2

theorem tag_version_written (d : PkgDoc) (cand : TagVal) (tag : String) (config : Config)
    (s : String) (hs : s ∈ (tagCandidates cand).filter qualifies) :
    memTag s (lookupA (Utils.tag_version d cand tag config).1.distTags tag) := by
  have hm := tag_apply_mem (lookupA d.distTags tag) cand s hs
  rcases hta : tag_apply (lookupA d.distTags tag) cand with ⟨val, changed⟩
  rw [hta] at hm
  unfold Utils.tag_version
  rw [hta]
  cases val with
  | none => simp [memTag] at hm
  | some v =>
      cases changed with
      | false =>
          have hcur := tag_apply_false_fst hta
          show memTag s (lookupA d.distTags tag)
          rw [hcur]
          exact hm
      | true =>
          show memTag s (lookupA (insertA d.distTags tag v) tag)
          rw [lookupA_insertA_self]
          exact hm

theorem tagMergeStep_distTags (config : Config) (r : Option String) (d : PkgDoc)
    (q : String × TagVal) :
    (tagMergeStep config r d q).distTags
      = (Utils.tag_version d q.2 q.1 config).1.distTags := by
  unfold tagMergeStep
  rcases h : Utils.tag_version d q.2 q.1 config with ⟨d2, added⟩
  cases added <;> by_cases hl : q.1 = "latest" <;> simp [hl]

theorem tagfold_preserve (config : Config) (r : Option String) :
    ∀ (l : List (String × TagVal)) (d : PkgDoc) (t s : String),
      memTag s (lookupA d.distTags t) →
      memTag s (lookupA (l.foldl (tagMergeStep config r) d).distTags t) := by
  intro l
  induction l with
  | nil => intro d t s h; exact h
  | cons q rest ih =>
      intro d t s h
      rw [List.foldl_cons]
      refine ih _ t s ?_
      rw [tagMergeStep_distTags]
      rcases tag_version_cases d q.2 q.1 config with h2 | ⟨v, hta, h2⟩
      · rw [h2]; exact h
      · rw [h2]
        by_cases ht : q.1 = t
        · subst ht
          rw [lookupA_insertA_self]
          have := tag_apply_preserve (lookupA d.distTags q.1) q.2 s h
          rw [hta] at this
          exact this
        · simp only []
          rw [lookupA_insertA_ne _ _ _ _ ht]
          exact h

theorem tagfold_entry_mem (config : Config) (r : Option String) :
    ∀ (l : List (String × TagVal)) (d : PkgDoc) (q : String × TagVal), q ∈ l →
      ∀ s ∈ (tagCandidates q.2).filter qualifies,
        memTag s (lookupA (l.foldl (tagMergeStep config r) d).distTags q.1) := by
  intro l
  induction l with
  | nil => intro d q h; simp at h
  | cons q0 rest ih =>
      intro d q hq s hs
      rcases List.mem_cons.1 hq with h2 | h2
      · subst h2
        rw [List.foldl_cons]
        refine tagfold_preserve config r rest _ q.1 s ?_
        rw [tagMergeStep_distTags]
        exact tag_version_written d q.2 q.1 config s hs
      · rw [List.foldl_cons]
        exact ih _ q h2 s hs

theorem tagfold_noop (config : Config) (r : Option String) :
    ∀ (l : List (String × TagVal)) (d : PkgDoc),
      (∀ q ∈ l, ∀ s ∈ (tagCandidates q.2).filter qualifies,
        memTag s (lookupA d.distTags q.1)) →
      l.foldl (tagMergeStep config r) d = d := by
  intro l
  induction l with
  | nil => intro d _; rfl
  | cons q rest ih =>
      intro d h
      have hstep : tagMergeStep config r d q = d := by
        unfold tagMergeStep
        rw [tag_version_noop d q.2 q.1 config (h q (List.mem_cons_self _ _))]
        simp
      rw [List.foldl_cons, hstep]
      exact ih d (fun q2 hq2 => h q2 (List.mem_cons_of_mem _ hq2))

/-- C8: `_merge_versions` is idempotent — merging the same remote document
into a local document twice leaves the document exactly as merging it once
(the whole document: versions, dist-tags and readme included). -/
theorem merge_versions_idempotent (loc up : PkgDoc) (config : Config) :
    Storage._merge_versions (Storage._merge_versions loc up config) up config
      = Storage._merge_versions loc up config := by
  have hstep : ∀ (a b : PkgDoc) (cfg : Config), Storage._merge_versions a b cfg
      = b.distTags.foldl (tagMergeStep cfg b.readme)
          { a with versions := b.versions.foldl versStep a.versions } :=
    fun a b cfg => rfl
  obtain ⟨dt, rm, hshape⟩ := merge_versions_shape loc up config
  have hv : up.versions.foldl versStep (Storage._merge_versions loc up config).versions
      = (Storage._merge_versions loc up config).versions := by
    rw [hshape]
    show up.versions.foldl versStep (up.versions.foldl versStep loc.versions)
        = up.versions.foldl versStep loc.versions
    exact versFold_idem up.versions loc.versions
  rw [hstep (Storage._merge_versions loc up config) up config, hv]
  have heta : ({ (Storage._merge_versions loc up config) with
      versions := (Storage._merge_versions loc up config).versions } : PkgDoc)
      = Storage._merge_versions loc up config := rfl
  rw [heta]
  apply tagfold_noop
  intro q hq s hs
  have hmem := tagfold_entry_mem config up.readme up.distTags
    { loc with versions := up.versions.foldl versStep loc.versions } q hq s hs
  rw [← hstep loc up config] at hmem
  exact hmem

theorem getUplinks_setUplinkRec (d : PkgDoc) (n : String) (r : SyncRec) :
    getUplinks (setUplinkRec d n r) = insertA (getUplinks d) n r := rfl

theorem merge_uplinks (loc up : PkgDoc) (config : Config) :
    (Storage._merge_versions loc up config).uplinks = loc.uplinks := by
  obtain ⟨dt, rm, h⟩ := merge_versions_shape loc up config
  rw [h]

theorem merge_name (loc up : PkgDoc) (config : Config) :
    (Storage._merge_versions loc up config).name = loc.name := by
  obtain ⟨dt, rm, h⟩ := merge_versions_shape loc up config
  rw [h]

theorem syncStep_fresh {name : String} {config : Config} {now : Int}
    {st : SyncSt} {u : Uplink}
    (h : is_fresh (lookupA (getUplinks st.doc) u.upname) now u.maxage = true) :
    syncStep name config now st u = some { st with errs := st.errs ++ [none] } := by
  simp [syncStep, h]

theorem syncStep_fail304 {name : String} {config : Config} {now : Int}
    {st : SyncSt} {u : Uplink} {e : ErrObj} {r : SyncRec}
    (hq : is_fresh (lookupA (getUplinks st.doc) u.upname) now u.maxage = false)
    (hresp : u.resp = .fail e) (h304 : e.status = some 304)
    (hrec : lookupA (getUplinks st.doc) u.upname = some r) :
    syncStep name config now st u = some
      { st with doc := setUplinkRec st.doc u.upname { r with fetched := some now },
                called := st.called ++ [u.upname],
                errs := st.errs ++ [some e] } := by
  rw [hrec] at hq
  simp [syncStep, hq, hresp, h304, hrec]

theorem syncStep_fail304_crash {name : String} {config : Config} {now : Int}
    {st : SyncSt} {u : Uplink} {e : ErrObj}
    (hq : is_fresh (lookupA (getUplinks st.doc) u.upname) now u.maxage = false)
    (hresp : u.resp = .fail e) (h304 : e.status = some 304)
    (hrec : lookupA (getUplinks st.doc) u.upname = none) :
    syncStep name config now st u = none := by
  rw [hrec] at hq
  simp [syncStep, hq, hresp, h304, hrec]

theorem syncStep_fail {name : String} {config : Config} {now : Int}
    {st : SyncSt} {u : Uplink} {e : ErrObj}
    (hq : is_fresh (lookupA (getUplinks st.doc) u.upname) now u.maxage = false)
    (hresp : u.resp = .fail e) (h304 : e.status ≠ some 304) :
    syncStep name config now st u = some
      { st with called := st.called ++ [u.upname], errs := st.errs ++ [some e] } := by
  simp [syncStep, hq, hresp, h304]

theorem syncStep_nodata {name : String} {config : Config} {now : Int}
    {st : SyncSt} {u : Uplink}
    (hq : is_fresh (lookupA (getUplinks st.doc) u.upname) now u.maxage = false)
    (hresp : u.resp = .nodata) :
    syncStep name config now st u = some
      { st with called := st.called ++ [u.upname],
                errs := st.errs ++ [some errNoData] } := by
  simp [syncStep, hq, hresp]

theorem syncStep_invalid {name : String} {config : Config} {now : Int}
    {st : SyncSt} {u : Uplink} {d : PkgDoc} {et : Option String}
    (hq : is_fresh (lookupA (getUplinks st.doc) u.upname) now u.maxage = false)
    (hresp : u.resp = .ok d et) (hname : d.name ≠ name) :
    syncStep name config now st u = some
      { st with called := st.called ++ [u.upname],
                errs := st.errs ++ [some errValidation] } := by
  simp [syncStep, hq, hresp, Utils.validate_metadata, hname]

theorem syncStep_valid {name : String} {config : Config} {now : Int}
    {st : SyncSt} {u : Uplink} {d : PkgDoc} {et : Option String}
    (hq : is_fresh (lookupA (getUplinks st.doc) u.upname) now u.maxage = false)
    (hresp : u.resp = .ok d et) (hname : d.name = name) :
    syncStep name config now st u = some
      { st with doc := Storage._merge_versions
                  (setUplinkRec st.doc u.upname { etag := et, fetched := some now }) d config,
                found := true,
                called := st.called ++ [u.upname],
                errs := st.errs ++ [none] } := by
  simp [syncStep, hq, hresp, Utils.validate_metadata, hname]

theorem called_append_ne {nm x : String} (hne : x ≠ nm) (l : List String) :
    nm ∈ l ++ [x] ↔ nm ∈ l := by
  rw [List.mem_append, List.mem_singleton]
  exact or_iff_left (Ne.symm hne)

theorem getUplinks_merge (loc up : PkgDoc) (config : Config) :
    getUplinks (Storage._merge_versions loc up config) = getUplinks loc := by
  unfold getUplinks
  rw [merge_uplinks]

/-- A sync step for one uplink neither touches another uplink's sync record
nor issues a call under another uplink's name. -/
theorem syncStep_other {name : String} {config : Config} {now : Int}
    {st st1 : SyncSt} {u : Uplink} {nm : String}
    (h : syncStep name config now st u = some st1) (hne : u.upname ≠ nm) :
    lookupA (getUplinks st1.doc) nm = lookupA (getUplinks st.doc) nm ∧
      (nm ∈ st1.called ↔ nm ∈ st.called) := by
  by_cases hfresh : is_fresh (lookupA (getUplinks st.doc) u.upname) now u.maxage = true
  · rw [syncStep_fresh hfresh] at h
    have h2 := Option.some.inj h
    rw [← h2]
    exact ⟨rfl, Iff.rfl⟩
  · have hq : is_fresh (lookupA (getUplinks st.doc) u.upname) now u.maxage = false := by
      simpa using hfresh
    cases hresp : u.resp with
    | fail e =>
        by_cases h304 : e.status = some 304
        · cases hrec : lookupA (getUplinks st.doc) u.upname with
          | none =>
              rw [syncStep_fail304_crash hq hresp h304 hrec] at h
              exact absurd h (by simp)
          | some r =>
              rw [syncStep_fail304 hq hresp h304 hrec] at h
              have h2 := Option.some.inj h
              rw [← h2]
              refine ⟨?_, called_append_ne hne st.called⟩
              rw [getUplinks_setUplinkRec, lookupA_insertA_ne _ _ _ _ hne]
        · rw [syncStep_fail hq hresp h304] at h
          have h2 := Option.some.inj h
          rw [← h2]
          exact ⟨rfl, called_append_ne hne st.called⟩
    | nodata =>
        rw [syncStep_nodata hq hresp] at h
        have h2 := Option.some.inj h
        rw [← h2]
        exact ⟨rfl, called_append_ne hne st.called⟩
    | ok d et =>
        by_cases hname : d.name = name
        · rw [syncStep_valid hq hresp hname] at h
          have h2 := Option.some.inj h
          rw [← h2]
          refine ⟨?_, called_append_ne hne st.called⟩
          show lookupA (getUplinks (Storage._merge_versions _ d config)) nm = _
          rw [getUplinks_merge, getUplinks_setUplinkRec, lookupA_insertA_ne _ _ _ _ hne]
        · rw [syncStep_invalid hq hresp hname] at h
          have h2 := Option.some.inj h
          rw [← h2]
          exact ⟨rfl, called_append_ne hne st.called⟩

theorem syncFold_other (name : String) (config : Config) (now : Int) :
    ∀ (l : List Uplink) (st st2 : SyncSt) (nm : String),
      l.foldlM (syncStep name config now) st = some st2 →
      nm ∉ l.map Uplink.upname →
      lookupA (getUplinks st2.doc) nm = lookupA (getUplinks st.doc) nm ∧
        (nm ∈ st2.called ↔ nm ∈ st.called) := by
  intro l
  induction l with
  | nil =>
      intro st st2 nm h _
      simp only [List.foldlM_nil] at h
      have h2 := Option.some.inj h
      rw [← h2]
      exact ⟨rfl, Iff.rfl⟩
  | cons w t ih =>
      intro st st2 nm h hnm
      rw [List.foldlM_cons] at h
      cases hstep : syncStep name config now st w with
      | none => rw [hstep] at h; simp at h
      | some st1 =>
          rw [hstep] at h
          simp only [Option.bind_eq_bind, Option.some_bind] at h
          simp only [List.map_cons, List.mem_cons] at hnm
          push_neg at hnm
          obtain ⟨hw, ht⟩ := hnm
          obtain ⟨ha, hb⟩ := syncStep_other hstep (fun h2 => hw h2.symm)
          obtain ⟨hc, hd⟩ := ih st1 st2 nm h ht
          exact ⟨hc.trans ha, hd.trans hb⟩

theorem is_fresh_of_bounds {r : SyncRec} {t now maxage : Int} (hf : r.fetched = some t)
    (ht : t ≠ 0) (hb : now - t < maxage) : is_fresh (some r) now maxage = true := by
  simp only [is_fresh, hf, Bool.and_eq_true, decide_eq_true_eq]
  exact ⟨ht, by omega⟩

/-- Through a whole pass, an uplink whose seed record is fresh (with a truthy
timestamp) is never called and its record survives untouched, provided the
candidate uplinks carry distinct names. -/
theorem syncFold_skips (name : String) (config : Config) (now : Int) :
    ∀ (l : List Uplink) (st st2 : SyncSt) (u : Uplink) (r : SyncRec) (t : Int),
      u ∈ l → (l.map Uplink.upname).Nodup →
      lookupA (getUplinks st.doc) u.upname = some r →
      r.fetched = some t → t ≠ 0 → now - t < u.maxage →
      l.foldlM (syncStep name config now) st = some st2 →
      (u.upname ∈ st2.called ↔ u.upname ∈ st.called) ∧
        lookupA (getUplinks st2.doc) u.upname = some r := by
  intro l
  induction l with
  | nil => intro st st2 u r t hmem; simp at hmem
  | cons w tl ih =>
      intro st st2 u r t hmem hnodup hrec hf ht hb h
      rw [List.foldlM_cons] at h
      simp only [List.map_cons, List.nodup_cons] at hnodup
      obtain ⟨hwn, htn⟩ := hnodup
      rcases List.mem_cons.1 hmem with h2 | h2
      · subst h2
        have hfresh : is_fresh (lookupA (getUplinks st.doc) u.upname) now u.maxage = true := by
          rw [hrec]
          exact is_fresh_of_bounds hf ht hb
        rw [syncStep_fresh hfresh] at h
        simp only [Option.bind_eq_bind, Option.some_bind] at h
        have hnin : u.upname ∉ tl.map Uplink.upname := hwn
        obtain ⟨ha, hb2⟩ := syncFold_other name config now tl _ st2 u.upname h hnin
        constructor
        · exact hb2
        · rw [ha]
          exact hrec
      · cases hstep : syncStep name config now st w with
        | none => rw [hstep] at h; simp at h
        | some st1 =>
            rw [hstep] at h
            simp only [Option.bind_eq_bind, Option.some_bind] at h
            have hwu : w.upname ≠ u.upname := by
              intro hcontra
              exact hwn (hcontra ▸ List.mem_map_of_mem Uplink.upname h2)
            obtain ⟨ha, hb2⟩ := syncStep_other hstep hwu
            obtain ⟨hc, hd⟩ := ih st1 st2 u r t h2 htn (ha.trans hrec) hf ht hb h
            exact ⟨hc.trans hb2, hd⟩

/-- The C4 claim as stated: during one `_sync_package_with_uplinks` pass, any
permitted uplink whose sync record exists in the seed document with
`now - fetched < maxage` is never called (its `get_package` is not invoked)
and its sync record is left unchanged. -/
def SkipFreshClaim : Prop :=
  ∀ (name : String) (seed : PkgDoc) (ups : List Uplink) (policy : String → Bool)
    (config : Config) (now : Int) (u : Uplink) (r : SyncRec) (t : Int) (st2 : SyncSt),
    u ∈ ups.filter (fun u2 => policy u2.upname) →
    lookupA (getUplinks seed) u.upname = some r →
    r.fetched = some t →
    now - t < u.maxage →
    syncRun name (some seed) ups policy config now = some st2 →
    u.upname ∉ st2.called ∧ lookupA (getUplinks st2.doc) u.upname = some r

/-- C4 (counterexample): the freshness test is `fetched && fetched > now -
maxage`; a record with `fetched = 0` is falsy, so an uplink whose record is
within `maxage` of `now` (here `now = 1`, `fetched = 0`, `maxage = 10`) is
still called, refuting the claim. -/
theorem sync_calls_uplink_with_zero_fetched : ¬ SkipFreshClaim := by
  intro h
  have h2 := h "p" { skeleton "p" with uplinks := some [("u1", ⟨none, some 0⟩)] }
    [⟨"u1", 10, .fail ⟨some 500, "down"⟩⟩] (fun _ => true) ⟨false⟩ 1
    ⟨"u1", 10, .fail ⟨some 500, "down"⟩⟩ ⟨none, some 0⟩ 0
    ⟨{ skeleton "p" with uplinks := some [("u1", ⟨none, some 0⟩)] }, true,
      [some ⟨some 500, "down"⟩], ["u1"]⟩
    (by decide) (by decide) rfl (by decide) (by decide)
  exact h2.1 (List.mem_cons_self _ _)

/-- C4 (amended): during one sync pass, every uplink whose sync record exists
with a truthy (nonzero) `fetched` timestamp satisfying `now - fetched <
maxage` is skipped: its `get_package` is never invoked, it contributes no
version, tag or sync-record changes (the step leaves the whole state
unchanged except for appending a success slot to the outcome list), and —
for a pass over distinctly-named candidates started on a seed document — the
uplink's name never enters the called set and its record survives the pass
unchanged. -/
theorem sync_skip_fresh_nonzero (name : String) (config : Config) (now : Int) :
    (∀ (st : SyncSt) (u : Uplink) (r : SyncRec) (t : Int),
        lookupA (getUplinks st.doc) u.upname = some r →
        r.fetched = some t → t ≠ 0 → now - t < u.maxage →
        syncStep name config now st u = some { st with errs := st.errs ++ [none] })
    ∧ (∀ (seed : PkgDoc) (ups : List Uplink) (policy : String → Bool)
        (u : Uplink) (r : SyncRec) (t : Int) (st2 : SyncSt),
        u ∈ ups.filter (fun u2 => policy u2.upname) →
        ((ups.filter (fun u2 => policy u2.upname)).map Uplink.upname).Nodup →
        lookupA (getUplinks seed) u.upname = some r →
        r.fetched = some t → t ≠ 0 → now - t < u.maxage →
        syncRun name (some seed) ups policy config now = some st2 →
        u.upname ∉ st2.called ∧ lookupA (getUplinks st2.doc) u.upname = some r) := by
  constructor
  · intro st u r t hrec hf ht hb
    apply syncStep_fresh
    rw [hrec]
    exact is_fresh_of_bounds hf ht hb
  · intro seed ups policy u r t st2 hmem hnodup hrec hf ht hb hrun
    unfold syncRun at hrun
    have h2 := syncFold_skips name config now _ _ st2 u r t hmem hnodup hrec hf ht hb hrun
    refine ⟨fun hin => ?_, h2.2⟩
    have h3 := h2.1.1 hin
    simp at h3

/-- Witness for C4's amended theorem: a concrete fresh record (nonzero
timestamp) makes the pass skip the uplink entirely. -/
theorem sync_skip_fresh_nonzero_witness :
    syncStep "p" ⟨false⟩ 100
      ⟨{ skeleton "p" with uplinks := some [("u1", ⟨some "E", some 99⟩)] }, true, [], []⟩
      ⟨"u1", 10, .fail ⟨some 500, "down"⟩⟩
      = some ⟨{ skeleton "p" with uplinks := some [("u1", ⟨some "E", some 99⟩)] },
              true, [none], []⟩
    ∧ ("u1" ∉ (⟨{ skeleton "p" with uplinks := some [("u1", ⟨some "E", some 99⟩)] },
                true, [none], []⟩ : SyncSt).called) := by
  constructor
  · exact (sync_skip_fresh_nonzero "p" ⟨false⟩ 100).1
      ⟨{ skeleton "p" with uplinks := some [("u1", ⟨some "E", some 99⟩)] }, true, [], []⟩
      ⟨"u1", 10, .fail ⟨some 500, "down"⟩⟩ ⟨some "E", some 99⟩ 99
      rfl rfl (by decide) (by decide)
  · have h2 := (sync_skip_fresh_nonzero "p" ⟨false⟩ 100).2
      { skeleton "p" with uplinks := some [("u1", ⟨some "E", some 99⟩)] }
      [⟨"u1", 10, .fail ⟨some 500, "down"⟩⟩] (fun _ => true)
      ⟨"u1", 10, .fail ⟨some 500, "down"⟩⟩ ⟨some "E", some 99⟩ 99
      ⟨{ skeleton "p" with uplinks := some [("u1", ⟨some "E", some 99⟩)] }, true, [none], []⟩
      (by decide) (by decide) rfl rfl (by decide) (by decide) (by decide)
    exact h2.1

/-- C5: for every uplink actually queried (not skipped as fresh) during a
sync pass: on a 304 not-modified outcome only the existing sync record's
`fetched` field is set to the current time (the `etag` field is carried over
unchanged) and the document's versions, dist-tags and readme are untouched,
with the 304 recorded in the uplink's outcome slot; on any other error
outcome — an error response, a response carrying no data, or a
metadata-validation failure — the document (sync record included) is not
modified at all and the error is recorded in that uplink's slot; on a
successful valid response the record is replaced with the response etag and
`fetched = now` before the merge runs.  The final conjunct certifies that a
record write touches nothing but the `_uplinks` entry of that uplink. -/
theorem syncStep_record_outcomes (name : String) (config : Config) (now : Int)
    (st : SyncSt) (u : Uplink)
    (hq : is_fresh (lookupA (getUplinks st.doc) u.upname) now u.maxage = false) :
    (∀ e r, u.resp = .fail e → e.status = some 304 →
        lookupA (getUplinks st.doc) u.upname = some r →
        syncStep name config now st u = some
          { st with doc := setUplinkRec st.doc u.upname { r with fetched := some now },
                    called := st.called ++ [u.upname],
                    errs := st.errs ++ [some e] })
    ∧ (∀ e, u.resp = .fail e → e.status ≠ some 304 →
        syncStep name config now st u = some
          { st with called := st.called ++ [u.upname], errs := st.errs ++ [some e] })
    ∧ (u.resp = .nodata →
        syncStep name config now st u = some
          { st with called := st.called ++ [u.upname],
                    errs := st.errs ++ [some errNoData] })
    ∧ (∀ d et, u.resp = .ok d et → d.name ≠ name →
        syncStep name config now st u = some
          { st with called := st.called ++ [u.upname],
                    errs := st.errs ++ [some errValidation] })
    ∧ (∀ d et, u.resp = .ok d et → d.name = name →
        syncStep name config now st u = some
          { st with doc := Storage._merge_versions
                      (setUplinkRec st.doc u.upname { etag := et, fetched := some now })
                      d config,
                    found := true,
                    called := st.called ++ [u.upname],
                    errs := st.errs ++ [none] })
    ∧ (∀ r2 : SyncRec,
        (setUplinkRec st.doc u.upname r2).versions = st.doc.versions ∧
        (setUplinkRec st.doc u.upname r2).distTags = st.doc.distTags ∧
        (setUplinkRec st.doc u.upname r2).readme = st.doc.readme ∧
        lookupA (getUplinks (setUplinkRec st.doc u.upname r2)) u.upname = some r2) := by
  refine ⟨?_, ?_, ?_, ?_, ?_, ?_⟩
  · intro e r hresp h304 hrec
    exact syncStep_fail304 hq hresp h304 hrec
  · intro e hresp h304
    exact syncStep_fail hq hresp h304
  · intro hresp
    exact syncStep_nodata hq hresp
  · intro d et hresp hname
    exact syncStep_invalid hq hresp hname
  · intro d et hresp hname
    exact syncStep_valid hq hresp hname
  · intro r2
    refine ⟨rfl, rfl, rfl, ?_⟩
    rw [getUplinks_setUplinkRec, lookupA_insertA_self]

/-- Witness for C5 at concrete inputs: a 304 refreshes only `fetched`
(etag "E" survives, timestamp 5 becomes 100), while a 500 leaves the stale
record untouched and records the error. -/
theorem syncStep_record_outcomes_witness :
    syncStep "p" ⟨false⟩ 100
      ⟨{ skeleton "p" with uplinks := some [("u1", ⟨some "E", some 5⟩)] }, false, [], []⟩
      ⟨"u1", 3, .fail ⟨some 304, "not modified"⟩⟩
      = some ⟨{ skeleton "p" with uplinks := some [("u1", ⟨some "E", some 100⟩)] },
              false, [some ⟨some 304, "not modified"⟩], ["u1"]⟩
    ∧ syncStep "p" ⟨false⟩ 100
      ⟨{ skeleton "p" with uplinks := some [("u1", ⟨some "E", some 5⟩)] }, false, [], []⟩
      ⟨"u1", 3, .fail ⟨some 500, "down"⟩⟩
      = some ⟨{ skeleton "p" with uplinks := some [("u1", ⟨some "E", some 5⟩)] },
              false, [some ⟨some 500, "down"⟩], ["u1"]⟩ := by
  constructor
  · have h := (syncStep_record_outcomes "p" ⟨false⟩ 100
      ⟨{ skeleton "p" with uplinks := some [("u1", ⟨some "E", some 5⟩)] }, false, [], []⟩
      ⟨"u1", 3, .fail ⟨some 304, "not modified"⟩⟩ (by decide)).1
      ⟨some 304, "not modified"⟩ ⟨some "E", some 5⟩ rfl rfl (by decide)
    rw [h]
    rfl
  · have h := (syncStep_record_outcomes "p" ⟨false⟩ 100
      ⟨{ skeleton "p" with uplinks := some [("u1", ⟨some "E", some 5⟩)] }, false, [], []⟩
      ⟨"u1", 3, .fail ⟨some 500, "down"⟩⟩ (by decide)).2.1
      ⟨some 500, "down"⟩ rfl (by decide)
    rw [h]
    rfl

deriving instance DecidableEq for Except

/-- The C7 claim as stated: every local error other than a 404 aborts
`get_package` immediately with that very error (no uplink sync happens). -/
def LocalErrorAbortsClaim : Prop :=
  ∀ (name : String) (e : ErrObj) (ups : List Uplink) (policy : String → Bool)
    (config : Config) (now : Int),
    e.status ≠ some 404 →
    Storage.get_package name (.error e) ups policy config now = some (.error e)

/-- C7 (counterexample): the gate in `get_package` is `err && (!err.status ||
err.status >= 500)`, so a local 403 error is tolerated: with one healthy
uplink the call proceeds to the sync and succeeds instead of aborting with
the 403, refuting the claim. -/
theorem get_package_tolerates_403 : ¬ LocalErrorAbortsClaim := by
  intro h
  have h2 := h "p" ⟨some 403, "forbidden"⟩ [⟨"u1", 10, .ok (skeleton "p") none⟩]
    (fun _ => true) ⟨false⟩ 0 (by decide)
  exact absurd h2 (by decide)

/-- C7 (amended): `get_package` aborts immediately with the local error
exactly when that error's status is falsy (absent or 0) or at least 500; a
local error with a truthy status below 500 — including 404, but also e.g.
403 — is tolerated, and the operation proceeds to the uplink synchronization
exactly as a local 404 would (same result for every uplink configuration). -/
theorem get_package_local_error_gate (name : String) (e : ErrObj) (ups : List Uplink)
    (policy : String → Bool) (config : Config) (now : Int) :
    (local_abort e = true →
      Storage.get_package name (.error e) ups policy config now = some (.error e))
    ∧ (local_abort e = false →
      Storage.get_package name (.error e) ups policy config now
        = Storage.get_package name (.error ⟨some 404, "not found"⟩) ups policy config now) := by
  have h404 : local_abort ⟨some 404, "not found"⟩ = false := by decide
  constructor
  · intro h
    simp [Storage.get_package, h]
  · intro h
    simp [Storage.get_package, h, h404]

/-- Witness for C7's amended theorem: a statusless local error aborts, while
a 403 yields the very same outcome as a 404 (the sync proceeds). -/
theorem get_package_local_error_gate_witness :
    Storage.get_package "p" (.error ⟨none, "disk on fire"⟩)
        [⟨"u1", 10, .ok (skeleton "p") none⟩] (fun _ => true) ⟨false⟩ 0
      = some (.error ⟨none, "disk on fire"⟩)
    ∧ Storage.get_package "p" (.error ⟨some 403, "forbidden"⟩)
        [⟨"u1", 10, .ok (skeleton "p") none⟩] (fun _ => true) ⟨false⟩ 0
      = Storage.get_package "p" (.error ⟨some 404, "not found"⟩)
        [⟨"u1", 10, .ok (skeleton "p") none⟩] (fun _ => true) ⟨false⟩ 0 := by
  constructor
  · exact (get_package_local_error_gate "p" ⟨none, "disk on fire"⟩
      [⟨"u1", 10, .ok (skeleton "p") none⟩] (fun _ => true) ⟨false⟩ 0).1 (by decide)
  · exact (get_package_local_error_gate "p" ⟨some 403, "forbidden"⟩
      [⟨"u1", 10, .ok (skeleton "p") none⟩] (fun _ => true) ⟨false⟩ 0).2 (by decide)

theorem is_fresh_none (now maxage : Int) : is_fresh none now maxage = false := rfl

theorem syncStep_found_mono {name : String} {config : Config} {now : Int}
    {st st1 : SyncSt} {u : Uplink}
    (h : syncStep name config now st u = some st1) (hf : st.found = true) :
    st1.found = true := by
  by_cases hfresh : is_fresh (lookupA (getUplinks st.doc) u.upname) now u.maxage = true
  · rw [syncStep_fresh hfresh] at h
    rw [← Option.some.inj h]
    exact hf
  · have hq : is_fresh (lookupA (getUplinks st.doc) u.upname) now u.maxage = false := by
      simpa using hfresh
    cases hresp : u.resp with
    | fail e =>
        by_cases h304 : e.status = some 304
        · cases hrec : lookupA (getUplinks st.doc) u.upname with
          | none =>
              rw [syncStep_fail304_crash hq hresp h304 hrec] at h
              exact absurd h (by simp)
          | some r =>
              rw [syncStep_fail304 hq hresp h304 hrec] at h
              rw [← Option.some.inj h]
              exact hf
        · rw [syncStep_fail hq hresp h304] at h
          rw [← Option.some.inj h]
          exact hf
    | nodata =>
        rw [syncStep_nodata hq hresp] at h
        rw [← Option.some.inj h]
        exact hf
    | ok d et =>
        by_cases hname : d.name = name
        · rw [syncStep_valid hq hresp hname] at h
          rw [← Option.some.inj h]
        · rw [syncStep_invalid hq hresp hname] at h
          rw [← Option.some.inj h]
          exact hf

theorem syncFold_found_mono (name : String) (config : Config) (now : Int) :
    ∀ (l : List Uplink) (st st2 : SyncSt),
      l.foldlM (syncStep name config now) st = some st2 →
      st.found = true → st2.found = true := by
  intro l
  induction l with
  | nil =>
      intro st st2 h hf
      simp only [List.foldlM_nil] at h
      rw [← Option.some.inj h]
      exact hf
  | cons w t ih =>
      intro st st2 h hf
      rw [List.foldlM_cons] at h
      cases hstep : syncStep name config now st w with
      | none => rw [hstep] at h; simp at h
      | some st1 =>
          rw [hstep] at h
          simp only [Option.bind_eq_bind, Option.some_bind] at h
          exact ih st1 st2 h (syncStep_found_mono hstep hf)

/-- The error object that ends up in an uplink's outcome slot when the uplink
does not confirm existence. -/
def errObjOf (u : Uplink) : ErrObj :=
  match u.resp with
  | .fail e => e
  | .nodata => errNoData
  | .ok _ _ => errValidation

/-- A fold over uplinks none of which confirms existence (and none of which
answers 304 — an unseeded pass sends no etag, so a conformant uplink never
answers 304) leaves the working document untouched and records one error per
uplink, positionally. -/
theorem syncFold_nonconfirm (name : String) (config : Config) (now : Int) :
    ∀ (l : List Uplink) (st : SyncSt),
      (∀ u ∈ l, (∀ d et, u.resp = .ok d et → d.name ≠ name) ∧
                (∀ e, u.resp = .fail e → e.status ≠ some 304)) →
      getUplinks st.doc = [] →
      l.foldlM (syncStep name config now) st
        = some { st with errs := st.errs ++ l.map (fun u => some (errObjOf u)),
                         called := st.called ++ l.map Uplink.upname } := by
  intro l
  induction l with
  | nil => intro st _ _; simp
  | cons u t ih =>
      intro st hall hdoc
      have hu := hall u (List.mem_cons_self _ _)
      have ht := fun u2 h2 => hall u2 (List.mem_cons_of_mem _ h2)
      have hq : is_fresh (lookupA (getUplinks st.doc) u.upname) now u.maxage = false := by
        rw [hdoc]
        rfl
      rw [List.foldlM_cons]
      cases hresp : u.resp with
      | fail e =>
          rw [syncStep_fail hq hresp (hu.2 e hresp)]
          simp only [Option.bind_eq_bind, Option.some_bind]
          rw [ih { st with errs := st.errs ++ [some e],
                           called := st.called ++ [u.upname] } ht hdoc]
          simp [errObjOf, hresp]
      | nodata =>
          rw [syncStep_nodata hq hresp]
          simp only [Option.bind_eq_bind, Option.some_bind]
          rw [ih { st with errs := st.errs ++ [some errNoData],
                           called := st.called ++ [u.upname] } ht hdoc]
          simp [errObjOf, hresp]
      | ok d et =>
          rw [syncStep_invalid hq hresp (hu.1 d et hresp)]
          simp only [Option.bind_eq_bind, Option.some_bind]
          rw [ih { st with errs := st.errs ++ [some errValidation],
                           called := st.called ++ [u.upname] } ht hdoc]
          simp [errObjOf, hresp]

/-- A fold over uplinks that never answer 304 cannot crash, existence is
monotone, and any confirming candidate forces existence — provided that a
not-yet-found state still has an empty record table (true for an unseeded
pass and preserved by every step). -/
theorem syncFold_confirm (name : String) (config : Config) (now : Int) :
    ∀ (l : List Uplink) (st : SyncSt),
      (∀ u ∈ l, ∀ e, u.resp = .fail e → e.status ≠ some 304) →
      (st.found = false → getUplinks st.doc = []) →
      ∃ st2, l.foldlM (syncStep name config now) st = some st2 ∧
        (st.found = true → st2.found = true) ∧
        ((∃ u ∈ l, ∃ d et, u.resp = .ok d et ∧ d.name = name) → st2.found = true) := by
  intro l
  induction l with
  | nil =>
      intro st _ _
      refine ⟨st, by simp, fun h => h, fun h => ?_⟩
      obtain ⟨u, hu, _⟩ := h
      simp at hu
  | cons u t ih =>
      intro st h304 hinv
      have hu304 := h304 u (List.mem_cons_self _ _)
      have ht304 := fun u2 h2 => h304 u2 (List.mem_cons_of_mem _ h2)
      have hstep : ∃ st1, syncStep name config now st u = some st1 ∧
          (st.found = true → st1.found = true) ∧
          ((∃ d et, u.resp = .ok d et ∧ d.name = name) → st1.found = true) ∧
          (st1.found = false → getUplinks st1.doc = []) := by
        by_cases hfresh : is_fresh (lookupA (getUplinks st.doc) u.upname) now u.maxage = true
        · refine ⟨_, syncStep_fresh hfresh, fun h => h, fun hc => ?_, fun h => hinv h⟩
          by_cases hf : st.found = true
          · exact hf
          · exfalso
            have hd := hinv (by simpa using hf)
            rw [hd] at hfresh
            simp [lookupA, is_fresh] at hfresh
        · have hq : is_fresh (lookupA (getUplinks st.doc) u.upname) now u.maxage = false := by
            simpa using hfresh
          cases hresp : u.resp with
          | fail e =>
              refine ⟨_, syncStep_fail hq hresp (hu304 e hresp), fun h => h, fun hc => ?_,
                fun h => hinv h⟩
              obtain ⟨d, et, hresp2, _⟩ := hc
              exact absurd hresp2 (by simp)
          | nodata =>
              refine ⟨_, syncStep_nodata hq hresp, fun h => h, fun hc => ?_, fun h => hinv h⟩
              obtain ⟨d, et, hresp2, _⟩ := hc
              exact absurd hresp2 (by simp)
          | ok d et =>
              by_cases hname : d.name = name
              · exact ⟨_, syncStep_valid hq hresp hname, fun _ => rfl, fun _ => rfl,
                  fun h => absurd h (by simp)⟩
              · refine ⟨_, syncStep_invalid hq hresp hname, fun h => h, fun hc => ?_,
                  fun h => hinv h⟩
                obtain ⟨d2, et2, hresp2, hname2⟩ := hc
                injection hresp2 with h1 h2
                rw [← h1] at hname2
                exact absurd hname2 hname
      obtain ⟨st1, hst1, hmono1, hconf1, hinv1⟩ := hstep
      obtain ⟨st2, hst2, hmono2, hconf2⟩ := ih st1 ht304 hinv1
      refine ⟨st2, ?_, fun hf => hmono2 (hmono1 hf), fun hc => ?_⟩
      · rw [List.foldlM_cons, hst1]
        simpa using hst2
      · obtain ⟨u2, hu2, hcc⟩ := hc
        rcases List.mem_cons.1 hu2 with h2 | h2
        · exact hmono2 (hconf1 (h2 ▸ hcc))
        · exact hconf2 ⟨u2, h2, hcc⟩

theorem check_err_results_map (l : List ErrObj) :
    check_err_results (l.map some)
      = some (l.all (fun e => decide (e.status = some 404))) := by
  induction l with
  | nil => rfl
  | cons e t ih =>
      by_cases h : e.status = some 404
      · simp [check_err_results, h, ih]
      · simp [check_err_results, h]

theorem check_err_results_append_true {xs ys : List (Option ErrObj)}
    (h : check_err_results (xs ++ ys) = some true) :
    check_err_results xs = some true ∧ check_err_results ys = some true := by
  induction xs with
  | nil => exact ⟨rfl, h⟩
  | cons x t ih =>
      cases x with
      | none => simp [check_err_results] at h
      | some er =>
          by_cases h2 : er.status = some 404
          · rw [List.cons_append] at h
            simp only [check_err_results, h2] at h ⊢
            simp only [ne_eq, not_true_eq_false, if_false] at h ⊢
            exact ih h
          · rw [List.cons_append] at h
            simp [check_err_results, h2] at h
  
theorem check_err_results_singleton_true {er : ErrObj}
    (h : check_err_results [some er] = some true) : er.status = some 404 := by
  by_cases h2 : er.status = some 404
  · exact h2
  · simp [check_err_results, h2] at h

/-- Forward inverse for the publish decision: if an unseeded pass ends
unconfirmed with every recorded outcome being a 404, then every candidate
uplink answered with a 404 error. -/
theorem syncFold_all404 (name : String) (config : Config) (now : Int) :
    ∀ (l : List Uplink) (st st2 : SyncSt),
      getUplinks st.doc = [] → st.found = false →
      l.foldlM (syncStep name config now) st = some st2 →
      st2.found = false →
      check_err_results st2.errs = some true →
      check_err_results st.errs = some true ∧
      ∀ u ∈ l, ∃ er, u.resp = .fail er ∧ er.status = some 404 := by
  intro l
  induction l with
  | nil =>
      intro st st2 hdoc hf h hf2 hchk
      simp only [List.foldlM_nil] at h
      rw [Option.some.inj h]
      exact ⟨hchk, fun u hu => by simp at hu⟩
  | cons u t ih =>
      intro st st2 hdoc hf h hf2 hchk
      rw [List.foldlM_cons] at h
      have hq : is_fresh (lookupA (getUplinks st.doc) u.upname) now u.maxage = false := by
        rw [hdoc]; rfl
      cases hresp : u.resp with
      | ok d et =>
          by_cases hname : d.name = name
          · rw [syncStep_valid hq hresp hname] at h
            simp only [Option.bind_eq_bind, Option.some_bind] at h
            have := syncFold_found_mono name config now t _ st2 h rfl
            rw [this] at hf2
            exact absurd hf2 (by simp)
          · rw [syncStep_invalid hq hresp hname] at h
            simp only [Option.bind_eq_bind, Option.some_bind] at h
            obtain ⟨hchk1, _⟩ :=
              ih { st with errs := st.errs ++ [some errValidation], called := st.called ++ [u.upname] } st2 hdoc hf h hf2 hchk
            obtain ⟨_, hbad⟩ := check_err_results_append_true hchk1
            have := check_err_results_singleton_true hbad
            simp [errValidation] at this
      | nodata =>
          rw [syncStep_nodata hq hresp] at h
          simp only [Option.bind_eq_bind, Option.some_bind] at h
          obtain ⟨hchk1, _⟩ :=
            ih { st with errs := st.errs ++ [some errNoData], called := st.called ++ [u.upname] } st2 hdoc hf h hf2 hchk
          obtain ⟨_, hbad⟩ := check_err_results_append_true hchk1
          have := check_err_results_singleton_true hbad
          simp [errNoData] at this
      | fail e =>
          by_cases h304 : e.status = some 304
          · cases hrec : lookupA (getUplinks st.doc) u.upname with
            | none =>
                rw [syncStep_fail304_crash hq hresp h304 hrec] at h
                simp at h
            | some r =>
                rw [hdoc] at hrec
                simp [lookupA] at hrec
          · rw [syncStep_fail hq hresp h304] at h
            simp only [Option.bind_eq_bind, Option.some_bind] at h
            obtain ⟨hchk1, hall⟩ :=
              ih { st with errs := st.errs ++ [some e], called := st.called ++ [u.upname] } st2 hdoc hf h hf2 hchk
            obtain ⟨hok, h404e⟩ := check_err_results_append_true hchk1
            refine ⟨hok, fun u2 hu2 => ?_⟩
            rcases List.mem_cons.1 hu2 with h2 | h2
            · exact ⟨e, h2 ▸ hresp, check_err_results_singleton_true h404e⟩
            · exact hall u2 h2

theorem sync_eq (name : String) (seed : Option PkgDoc) (ups : List Uplink)
    (policy : String → Bool) (config : Config) (now : Int) :
    Storage._sync_package_with_uplinks name seed ups policy config now
      = (syncRun name seed ups policy config now).map (fun st =>
          if st.found then (.ok st.doc, st.errs) else (.error err404pkg, st.errs)) := rfl

theorem syncRun_none (name : String) (ups : List Uplink) (policy : String → Bool)
    (config : Config) (now : Int) :
    syncRun name none ups policy config now
      = (ups.filter (fun u => policy u.upname)).foldlM (syncStep name config now)
          ⟨skeleton name, false, [], []⟩ := rfl

theorem add_package_error (name : String) (e0 : ErrObj) (ups : List Uplink)
    (policy : String → Bool) (config : Config) (now : Int) (h404 : e0.status = some 404) :
    Storage.add_package name (.error e0) ups policy config now
      = match Storage._sync_package_with_uplinks name none ups policy config now with
        | none => none
        | some (.ok _, _) => some (.failed err409)
        | some (.error e2, errs) =>
            if e2.status ≠ some 404 then some (.failed e2)
            else match check_err_results errs with
              | none => none
              | some false => some (.failed err503)
              | some true => some .published := by
  simp [Storage.add_package, h404]

/-- C1: `add_package` (i) fails with Conflict when the package exists
locally; (ii) fails with Conflict when any permitted uplink confirms the
package (assuming conformant uplinks, i.e. no 304 answer to the etag-less
probe of an unseeded pass); (iii) fails with ServiceUnavailable when no
uplink confirms existence but some permitted uplink's recorded error has a
status other than 404 (a statusless validation error and the 500 of a
data-less response included); and (iv) invokes `local.add_package` exactly
when the local check reported a 404 and every permitted uplink answered with
a 404 error (with an unseeded pass nothing is ever skipped as fresh, so
"returned 404 or was not checked" reduces to "returned 404"). -/
theorem add_package_existence_checks (name : String) (localResp : Except ErrObj PkgDoc)
    (ups : List Uplink) (policy : String → Bool) (config : Config) (now : Int) :
    (∀ d, localResp = .ok d →
      Storage.add_package name localResp ups policy config now = some (.failed err409))
    ∧ (∀ e0, localResp = .error e0 → e0.status = some 404 →
        (∀ u ∈ ups.filter (fun u2 => policy u2.upname),
          ∀ e, u.resp = .fail e → e.status ≠ some 304) →
        (∃ u ∈ ups.filter (fun u2 => policy u2.upname),
          ∃ d et, u.resp = .ok d et ∧ d.name = name) →
        Storage.add_package name localResp ups policy config now = some (.failed err409))
    ∧ (∀ e0, localResp = .error e0 → e0.status = some 404 →
        (∀ u ∈ ups.filter (fun u2 => policy u2.upname),
          (∀ d et, u.resp = .ok d et → d.name ≠ name) ∧
          (∀ e, u.resp = .fail e → e.status ≠ some 304)) →
        (∃ u ∈ ups.filter (fun u2 => policy u2.upname), (errObjOf u).status ≠ some 404) →
        Storage.add_package name localResp ups policy config now = some (.failed err503))
    ∧ (Storage.add_package name localResp ups policy config now = some .published ↔
        ((∃ e0, localResp = .error e0 ∧ e0.status = some 404) ∧
         ∀ u ∈ ups.filter (fun u2 => policy u2.upname),
           ∃ er, u.resp = .fail er ∧ er.status = some 404)) := by
  refine ⟨?_, ?_, ?_, ?_⟩
  · intro d h
    subst h
    simp [Storage.add_package]
  · intro e0 h h404 h304 hconf
    subst h
    obtain ⟨st2, hfold, _, hcf⟩ := syncFold_confirm name config now
      (ups.filter (fun u2 => policy u2.upname))
      ⟨skeleton name, false, [], []⟩ h304 (fun _ => rfl)
    have hfound := hcf hconf
    have hsync : Storage._sync_package_with_uplinks name none ups policy config now
        = some (.ok st2.doc, st2.errs) := by
      rw [sync_eq, syncRun_none, hfold]
      simp [hfound]
    simp [Storage.add_package, h404, hsync]
  · intro e0 h h404 hall hbad
    subst h
    have hfold := syncFold_nonconfirm name config now
      (ups.filter (fun u2 => policy u2.upname))
      ⟨skeleton name, false, [], []⟩ hall rfl
    have hsync : Storage._sync_package_with_uplinks name none ups policy config now
        = some (.error err404pkg,
            ((ups.filter (fun u2 => policy u2.upname)).map (fun u => some (errObjOf u)))) := by
      rw [sync_eq, syncRun_none, hfold]
      rfl
    have hmm : (ups.filter (fun u2 => policy u2.upname)).map (fun u => some (errObjOf u))
        = ((ups.filter (fun u2 => policy u2.upname)).map errObjOf).map some := by
      simp [List.map_map, Function.comp]
    have hchk : check_err_results
        ((ups.filter (fun u2 => policy u2.upname)).map (fun u => some (errObjOf u)))
        = some false := by
      rw [hmm, check_err_results_map]
      obtain ⟨u, hu, hne⟩ := hbad
      have : ((ups.filter (fun u2 => policy u2.upname)).map errObjOf).all
          (fun e => decide (e.status = some 404)) = false := by
        rw [List.all_eq_false]
        exact ⟨errObjOf u, List.mem_map_of_mem errObjOf hu, by simpa using hne⟩
      rw [this]
    simp [Storage.add_package, h404, hsync, err404pkg, hchk]
  · constructor
    · intro hpub
      cases hl : localResp with
      | ok d => rw [hl] at hpub; simp [Storage.add_package] at hpub
      | error e0 =>
          rw [hl] at hpub
          by_cases h404 : e0.status = some 404
          · refine ⟨⟨e0, rfl, h404⟩, ?_⟩
            rw [add_package_error name e0 ups policy config now h404] at hpub
            cases hrun : syncRun name none ups policy config now with
            | none =>
                rw [sync_eq, hrun] at hpub
                simp at hpub
            | some st2 =>
                rw [sync_eq, hrun] at hpub
                by_cases hfound : st2.found = true
                · simp [hfound] at hpub
                · have hf2 : st2.found = false := by simpa using hfound
                  simp [hf2, err404pkg] at hpub
                  cases hchk : check_err_results st2.errs with
                  | none => rw [hchk] at hpub; simp at hpub
                  | some b =>
                      cases b with
                      | false => rw [hchk] at hpub; simp at hpub
                      | true =>
                          have h4 := syncFold_all404 name config now
                            (ups.filter (fun u2 => policy u2.upname))
                            ⟨skeleton name, false, [], []⟩ st2 rfl rfl
                            (by rw [← syncRun_none]; exact hrun) hf2
                            (by rw [hchk])
                          exact h4.2
          · simp [Storage.add_package, h404] at hpub
    · intro hcond
      obtain ⟨⟨e0, heq, h404⟩, hall⟩ := hcond
      subst heq
      have hall2 : ∀ u ∈ ups.filter (fun u2 => policy u2.upname),
          (∀ d et, u.resp = .ok d et → d.name ≠ name) ∧
          (∀ e, u.resp = .fail e → e.status ≠ some 304) := by
        intro u hu
        obtain ⟨er, hresp, hst⟩ := hall u hu
        constructor
        · intro d et h2
          rw [hresp] at h2
          exact absurd h2 (by simp)
        · intro e h2
          rw [hresp] at h2
          injection h2 with h3
          rw [← h3, hst]
          simp
      have hfold := syncFold_nonconfirm name config now
        (ups.filter (fun u2 => policy u2.upname))
        ⟨skeleton name, false, [], []⟩ hall2 rfl
      have hsync : Storage._sync_package_with_uplinks name none ups policy config now
          = some (.error err404pkg,
              ((ups.filter (fun u2 => policy u2.upname)).map (fun u => some (errObjOf u)))) := by
        rw [sync_eq, syncRun_none, hfold]
        rfl
      have hmm : (ups.filter (fun u2 => policy u2.upname)).map (fun u => some (errObjOf u))
          = ((ups.filter (fun u2 => policy u2.upname)).map errObjOf).map some := by
        simp [List.map_map, Function.comp]
      have hchk : check_err_results
          ((ups.filter (fun u2 => policy u2.upname)).map (fun u => some (errObjOf u)))
          = some true := by
        rw [hmm, check_err_results_map]
        have : ((ups.filter (fun u2 => policy u2.upname)).map errObjOf).all
            (fun e => decide (e.status = some 404)) = true := by
          rw [List.all_eq_true]
          intro e he
          obtain ⟨u, hu, heq2⟩ := List.mem_map.1 he
          obtain ⟨er, hresp, hst⟩ := hall u hu
          have : errObjOf u = er := by simp [errObjOf, hresp]
          rw [← heq2, this, hst]
          simp
        rw [this]
      simp [Storage.add_package, h404, hsync, err404pkg, hchk]

/-- Witness for C1 at concrete inputs: a locally present package yields 409;
a confirming uplink yields 409; an unreachable uplink (500) yields 503; and
with a local 404 plus an uplink 404 the publish goes through. -/
theorem add_package_existence_checks_witness :
    Storage.add_package "p" (.ok (skeleton "p")) [] (fun _ => true) ⟨false⟩ 0
        = some (.failed err409)
    ∧ Storage.add_package "p" (.error ⟨some 404, "nf"⟩)
        [⟨"u1", 10, .ok (skeleton "p") none⟩] (fun _ => true) ⟨false⟩ 0
        = some (.failed err409)
    ∧ Storage.add_package "p" (.error ⟨some 404, "nf"⟩)
        [⟨"u1", 10, .fail ⟨some 500, "down"⟩⟩] (fun _ => true) ⟨false⟩ 0
        = some (.failed err503)
    ∧ Storage.add_package "p" (.error ⟨some 404, "nf"⟩)
        [⟨"u1", 10, .fail ⟨some 404, "absent"⟩⟩] (fun _ => true) ⟨false⟩ 0
        = some .published := by
  refine ⟨?_, ?_, ?_, ?_⟩
  · exact (add_package_existence_checks "p" (.ok (skeleton "p")) [] (fun _ => true)
      ⟨false⟩ 0).1 (skeleton "p") rfl
  · exact (add_package_existence_checks "p" (.error ⟨some 404, "nf"⟩)
      [⟨"u1", 10, .ok (skeleton "p") none⟩] (fun _ => true) ⟨false⟩ 0).2.1
      ⟨some 404, "nf"⟩ rfl rfl
      (by intro u hu e h2; simp [List.filter] at hu; subst hu; simp at h2)
      ⟨⟨"u1", 10, .ok (skeleton "p") none⟩, by decide, skeleton "p", none, rfl, rfl⟩
  · exact (add_package_existence_checks "p" (.error ⟨some 404, "nf"⟩)
      [⟨"u1", 10, .fail ⟨some 500, "down"⟩⟩] (fun _ => true) ⟨false⟩ 0).2.2.1
      ⟨some 404, "nf"⟩ rfl rfl
      (by
        intro u hu
        simp [List.filter] at hu
        subst hu
        exact ⟨fun d et h2 => by simp at h2,
               fun e h2 => by injection h2 with h3; rw [← h3]; decide⟩)
      ⟨⟨"u1", 10, .fail ⟨some 500, "down"⟩⟩, by decide, by decide⟩
  · exact (add_package_existence_checks "p" (.error ⟨some 404, "nf"⟩)
      [⟨"u1", 10, .fail ⟨some 404, "absent"⟩⟩] (fun _ => true) ⟨false⟩ 0).2.2.2.2
      ⟨⟨⟨some 404, "nf"⟩, rfl, rfl⟩,
       by
        intro u hu
        simp [List.filter] at hu
        subst hu
        exact ⟨⟨some 404, "absent"⟩, rfl, rfl⟩⟩

theorem lookupA_some_mem_keys {α : Type} {l : List (String × α)} {k : String} {v : α}
    (h : lookupA l k = some v) : k ∈ keysA l :=
  List.mem_map_of_mem Prod.fst (lookupA_mem h)

theorem versFold_keys_mono :
    ∀ (l : List (String × VObj)) (vs : List (String × VObj)) (k : String),
      k ∈ keysA vs → k ∈ keysA (l.foldl versStep vs) := by
  intro l
  induction l with
  | nil => intro vs k h; exact h
  | cons p t ih =>
      intro vs k h
      rw [List.foldl_cons]
      refine ih _ k ?_
      unfold versStep
      split_ifs with h2
      · exact keysA_insertA_mem p.1 p.2 h
      · exact h

theorem versFold_adds :
    ∀ (l : List (String × VObj)) (vs : List (String × VObj)) (k : String) (v : VObj),
      (k, v) ∈ l → k ∈ keysA (l.foldl versStep vs) := by
  intro l
  induction l with
  | nil => intro vs k v h; simp at h
  | cons p t ih =>
      intro vs k v h
      rcases List.mem_cons.1 h with h2 | h2
      · rw [List.foldl_cons]
        refine versFold_keys_mono t _ k ?_
        unfold versStep
        split_ifs with h3
        · rw [← h2]
          exact keysA_insertA_self vs k v
        · cases hvs : lookupA vs p.1 with
          | none =>
              rw [hvs] at h3
              simp [isNullish] at h3
          | some w =>
              have h4 := lookupA_some_mem_keys hvs
              rw [← h2] at h4
              exact h4
      · rw [List.foldl_cons]
        exact ih _ k v h2

theorem merge_keys_mono (loc up : PkgDoc) (config : Config) (k : String)
    (h : k ∈ keysA loc.versions) :
    k ∈ keysA (Storage._merge_versions loc up config).versions := by
  obtain ⟨dt, rm, hs⟩ := merge_versions_shape loc up config
  rw [hs]
  exact versFold_keys_mono up.versions loc.versions k h

theorem merge_keys_adds (loc up : PkgDoc) (config : Config) (k : String)
    (h : k ∈ keysA up.versions) :
    k ∈ keysA (Storage._merge_versions loc up config).versions := by
  obtain ⟨dt, rm, hs⟩ := merge_versions_shape loc up config
  rw [hs]
  obtain ⟨⟨k2, v⟩, hm, he⟩ := List.mem_map.1 h
  simp at he
  rw [← he]
  exact versFold_adds up.versions loc.versions k2 v hm

theorem tagFold_distTags_nodup (config : Config) (r : Option String) :
    ∀ (l : List (String × TagVal)) (d : PkgDoc),
      (keysA d.distTags).Nodup →
      (keysA ((l.foldl (tagMergeStep config r) d)).distTags).Nodup := by
  intro l
  induction l with
  | nil => intro d h; exact h
  | cons q t ih =>
      intro d h
      rw [List.foldl_cons]
      refine ih _ ?_
      have hdt := tagMergeStep_distTags config r d q
      rcases tag_version_cases d q.2 q.1 config with h2 | ⟨v, _, h2⟩
      · rw [hdt, h2]
        exact h
      · rw [hdt, h2]
        exact keysA_nodup_insertA d.distTags q.1 v h

theorem merge_distTags_nodup (loc up : PkgDoc) (config : Config)
    (h : (keysA loc.distTags).Nodup) :
    (keysA (Storage._merge_versions loc up config).distTags).Nodup := by
  have hstep : Storage._merge_versions loc up config
      = up.distTags.foldl (tagMergeStep config up.readme)
          { loc with versions := up.versions.foldl versStep loc.versions } := rfl
  rw [hstep]
  exact tagFold_distTags_nodup config up.readme up.distTags _ h

theorem withLatest_shape (config : Config) (d : PkgDoc) :
    ∃ dt, withLatest config d = { d with distTags := dt } := by
  unfold withLatest
  split_ifs with h
  · exact ⟨insertA d.distTags "latest" (.list (Utils.semver_sort (keysA d.versions))), rfl⟩
  · exact ⟨d.distTags, rfl⟩

theorem postprocess_shape (config : Config) (d : PkgDoc) :
    ∃ dt, postprocess config d
      = { d with distTags := dt, uplinks := none, distfiles := none,
                 attachments := some [], extra := [] }
        ∧ dt = collapseTags (withLatest config (strip d)).distTags := by
  unfold postprocess
  obtain ⟨dt2, h2⟩ := withLatest_shape config (strip d)
  rw [h2]
  exact ⟨collapseTags dt2, rfl, rfl⟩

theorem collapseTags_cons_str (k s : String) (t2 : List (String × TagVal)) :
    collapseTags ((k, TagVal.str s) :: t2) = (k, TagVal.str s) :: collapseTags t2 := by
  simp [collapseTags]

theorem collapseTags_cons_list_some (k : String) (l2 : List String) (s : String)
    (t2 : List (String × TagVal)) (h : l2.getLast? = some s) :
    collapseTags ((k, TagVal.list l2) :: t2) = (k, TagVal.str s) :: collapseTags t2 := by
  simp [collapseTags, h]

theorem collapseTags_cons_list_none (k : String) (l2 : List String)
    (t2 : List (String × TagVal)) (h : l2.getLast? = none) :
    collapseTags ((k, TagVal.list l2) :: t2) = collapseTags t2 := by
  simp [collapseTags, h]

theorem collapseTags_scalar :
    ∀ (l : List (String × TagVal)) (t : String) (v : TagVal),
      lookupA (collapseTags l) t = some v → ∃ s, v = .str s := by
  intro l
  induction l with
  | nil => intro t v h; simp [collapseTags, lookupA] at h
  | cons p t2 ih =>
      intro t v h
      obtain ⟨k, tv⟩ := p
      cases tv with
      | str s =>
          rw [collapseTags_cons_str] at h
          rw [lookupA] at h
          by_cases hk : k = t
          · simp [hk] at h
            exact ⟨s, h.symm⟩
          · simp [hk] at h
            exact ih t v h
      | list l2 =>
          cases hl : l2.getLast? with
          | none =>
              rw [collapseTags_cons_list_none k l2 t2 hl] at h
              exact ih t v h
          | some s =>
              rw [collapseTags_cons_list_some k l2 s t2 hl] at h
              rw [lookupA] at h
              by_cases hk : k = t
              · simp [hk] at h
                exact ⟨s, h.symm⟩
              · simp [hk] at h
                exact ih t v h

theorem collapseTags_keys_sub :
    ∀ (l : List (String × TagVal)) (t : String),
      t ∈ keysA (collapseTags l) → t ∈ keysA l := by
  intro l
  induction l with
  | nil => intro t h; simp [collapseTags, keysA] at h
  | cons p t2 ih =>
      intro t h
      obtain ⟨k, tv⟩ := p
      simp only [keysA, List.map_cons, List.mem_cons]
      cases tv with
      | str s =>
          rw [collapseTags_cons_str] at h
          simp only [keysA, List.map_cons, List.mem_cons] at h
          rcases h with h | h
          · exact Or.inl h
          · exact Or.inr (ih t h)
      | list l2 =>
          cases hl : l2.getLast? with
          | none =>
              rw [collapseTags_cons_list_none k l2 t2 hl] at h
              exact Or.inr (ih t h)
          | some s =>
              rw [collapseTags_cons_list_some k l2 s t2 hl] at h
              simp only [keysA, List.map_cons, List.mem_cons] at h
              rcases h with h | h
              · exact Or.inl h
              · exact Or.inr (ih t h)

theorem collapseTags_lookup_list :
    ∀ (l : List (String × TagVal)) (t : String) (l2 : List String),
      (keysA l).Nodup →
      lookupA l t = some (.list l2) →
      lookupA (collapseTags l) t = (l2.getLast?).map TagVal.str := by
  intro l
  induction l with
  | nil => intro t l2 _ h; simp [lookupA] at h
  | cons p t2 ih =>
      intro t l2 hnd h
      obtain ⟨k, tv⟩ := p
      simp only [keysA, List.map_cons, List.nodup_cons] at hnd
      obtain ⟨hk1, hk2⟩ := hnd
      by_cases hk : k = t
      · subst hk
        rw [lookupA] at h
        simp at h
        subst h
        cases hl : l2.getLast? with
        | none =>
            rw [collapseTags_cons_list_none k l2 t2 hl]
            show lookupA (collapseTags t2) k = none
            rw [lookupA_eq_none_iff]
            intro hmem
            exact hk1 (collapseTags_keys_sub t2 k hmem)
        | some s =>
            rw [collapseTags_cons_list_some k l2 s t2 hl]
            rw [lookupA]
            simp
      · rw [lookupA] at h
        simp [hk] at h
        cases tv with
        | str s =>
            rw [collapseTags_cons_str, lookupA]
            simp [hk]
            exact ih t l2 hk2 h
        | list l3 =>
            cases hl : l3.getLast? with
            | none =>
                rw [collapseTags_cons_list_none k l3 t2 hl]
                exact ih t l2 hk2 h
            | some s =>
                rw [collapseTags_cons_list_some k l3 s t2 hl, lookupA]
                simp [hk]
                exact ih t l2 hk2 h

theorem sorted_getLast_max :
    ∀ (l : List String), l.Sorted semverR → ∀ a ∈ l, ∀ m, l.getLast? = some m →
      semverR a m := by
  intro l
  induction l with
  | nil => intro _ a ha; simp at ha
  | cons x t ih =>
      intro hs a ha m hm
      cases t with
      | nil =>
          simp at hm ha
          subst hm; subst ha
          exact semverR_refl a
      | cons y t2 =>
          rw [List.getLast?_cons_cons] at hm
          rw [List.sorted_cons] at hs
          rcases List.mem_cons.1 ha with h2 | h2
          · subst h2
            have hmm : m ∈ y :: t2 := by
              rcases List.mem_getLast?_eq_getLast
                (show m ∈ (y :: t2).getLast? from by rw [Option.mem_def]; exact hm)
                with ⟨hne, hgl⟩
              rw [hgl]
              exact List.getLast_mem hne
            exact hs.1 m hmm
          · exact ih hs.2 a h2 m hm

theorem semver_sort_sorted (l : List String) : (Utils.semver_sort l).Sorted semverR :=
  List.sorted_insertionSort semverR _

theorem semver_sort_mem (l : List String) (v : String) :
    v ∈ Utils.semver_sort l ↔ (v ∈ l ∧ qualifies v = true) := by
  unfold Utils.semver_sort
  rw [List.Perm.mem_iff (List.perm_insertionSort semverR _)]
  simp [List.mem_filter]

theorem semver_sort_eq_nil {l : List String} (h : Utils.semver_sort l = []) :
    ∀ v ∈ l, qualifies v = false := by
  intro v hv
  by_cases hq : qualifies v = true
  · exfalso
    have h2 : v ∈ Utils.semver_sort l := (semver_sort_mem l v).2 ⟨hv, hq⟩
    rw [h] at h2
    simp at h2
  · simpa using hq

theorem syncStep_distTags_nodup {name : String} {config : Config} {now : Int}
    {st st1 : SyncSt} {u : Uplink}
    (h : syncStep name config now st u = some st1)
    (hnd : (keysA st.doc.distTags).Nodup) : (keysA st1.doc.distTags).Nodup := by
  by_cases hfresh : is_fresh (lookupA (getUplinks st.doc) u.upname) now u.maxage = true
  · rw [syncStep_fresh hfresh] at h
    rw [← Option.some.inj h]
    exact hnd
  · have hq : is_fresh (lookupA (getUplinks st.doc) u.upname) now u.maxage = false := by
      simpa using hfresh
    cases hresp : u.resp with
    | fail e =>
        by_cases h304 : e.status = some 304
        · cases hrec : lookupA (getUplinks st.doc) u.upname with
          | none =>
              rw [syncStep_fail304_crash hq hresp h304 hrec] at h
              exact absurd h (by simp)
          | some r =>
              rw [syncStep_fail304 hq hresp h304 hrec] at h
              rw [← Option.some.inj h]
              exact hnd
        · rw [syncStep_fail hq hresp h304] at h
          rw [← Option.some.inj h]
          exact hnd
    | nodata =>
        rw [syncStep_nodata hq hresp] at h
        rw [← Option.some.inj h]
        exact hnd
    | ok d et =>
        by_cases hname : d.name = name
        · rw [syncStep_valid hq hresp hname] at h
          rw [← Option.some.inj h]
          exact merge_distTags_nodup _ d config hnd
        · rw [syncStep_invalid hq hresp hname] at h
          rw [← Option.some.inj h]
          exact hnd

theorem syncFold_distTags_nodup (name : String) (config : Config) (now : Int) :
    ∀ (l : List Uplink) (st st2 : SyncSt),
      l.foldlM (syncStep name config now) st = some st2 →
      (keysA st.doc.distTags).Nodup → (keysA st2.doc.distTags).Nodup := by
  intro l
  induction l with
  | nil =>
      intro st st2 h hnd
      simp only [List.foldlM_nil] at h
      rw [← Option.some.inj h]
      exact hnd
  | cons w t ih =>
      intro st st2 h hnd
      rw [List.foldlM_cons] at h
      cases hstep : syncStep name config now st w with
      | none => rw [hstep] at h; simp at h
      | some st1 =>
          rw [hstep] at h
          simp only [Option.bind_eq_bind, Option.some_bind] at h
          exact ih st1 st2 h (syncStep_distTags_nodup hstep hnd)

/-- Through one pass with distinctly-named candidates all lacking seed
records, version keys only accumulate, and every valid confirming response's
version keys end up in the final document. -/
theorem syncFold_versions (name : String) (config : Config) (now : Int) :
    ∀ (l : List Uplink) (st st2 : SyncSt),
      l.foldlM (syncStep name config now) st = some st2 →
      (∀ u ∈ l, lookupA (getUplinks st.doc) u.upname = none) →
      (l.map Uplink.upname).Nodup →
      (∀ k, k ∈ keysA st.doc.versions → k ∈ keysA st2.doc.versions) ∧
      (∀ u ∈ l, ∀ d et, u.resp = .ok d et → d.name = name →
        ∀ k, k ∈ keysA d.versions → k ∈ keysA st2.doc.versions) := by
  intro l
  induction l with
  | nil =>
      intro st st2 h _ _
      simp only [List.foldlM_nil] at h
      rw [← Option.some.inj h]
      exact ⟨fun k hk => hk, fun u hu => by simp at hu⟩
  | cons u t ih =>
      intro st st2 h hrec hnodup
      rw [List.foldlM_cons] at h
      simp only [List.map_cons, List.nodup_cons] at hnodup
      obtain ⟨hun, htn⟩ := hnodup
      have hrecu := hrec u (List.mem_cons_self _ _)
      have hq : is_fresh (lookupA (getUplinks st.doc) u.upname) now u.maxage = false := by
        rw [hrecu]; rfl
      cases hresp : u.resp with
      | fail e =>
          by_cases h304 : e.status = some 304
          · rw [syncStep_fail304_crash hq hresp h304 hrecu] at h
            simp at h
          · rw [syncStep_fail hq hresp h304] at h
            simp only [Option.bind_eq_bind, Option.some_bind] at h
            obtain ⟨hmono, hrest⟩ := ih _ st2 h
              (fun u2 hu2 => hrec u2 (List.mem_cons_of_mem _ hu2)) htn
            refine ⟨hmono, fun u2 hu2 d et hresp2 hname2 k hk => ?_⟩
            rcases List.mem_cons.1 hu2 with h2 | h2
            · rw [h2, hresp] at hresp2
              exact absurd hresp2 (by simp)
            · exact hrest u2 h2 d et hresp2 hname2 k hk
      | nodata =>
          rw [syncStep_nodata hq hresp] at h
          simp only [Option.bind_eq_bind, Option.some_bind] at h
          obtain ⟨hmono, hrest⟩ := ih _ st2 h
            (fun u2 hu2 => hrec u2 (List.mem_cons_of_mem _ hu2)) htn
          refine ⟨hmono, fun u2 hu2 d et hresp2 hname2 k hk => ?_⟩
          rcases List.mem_cons.1 hu2 with h2 | h2
          · rw [h2, hresp] at hresp2
            exact absurd hresp2 (by simp)
          · exact hrest u2 h2 d et hresp2 hname2 k hk
      | ok d0 et0 =>
          by_cases hname : d0.name = name
          · rw [syncStep_valid hq hresp hname] at h
            simp only [Option.bind_eq_bind, Option.some_bind] at h
            have hrec2 : ∀ u2 ∈ t, lookupA (getUplinks (Storage._merge_versions
                (setUplinkRec st.doc u.upname { etag := et0, fetched := some now })
                d0 config)) u2.upname = none := by
              intro u2 hu2
              rw [getUplinks_merge, getUplinks_setUplinkRec]
              have hne : u.upname ≠ u2.upname := by
                intro hcontra
                exact hun (hcontra ▸ List.mem_map_of_mem Uplink.upname hu2)
              rw [lookupA_insertA_ne _ _ _ _ hne]
              exact hrec u2 (List.mem_cons_of_mem _ hu2)
            obtain ⟨hmono, hrest⟩ := ih _ st2 h hrec2 htn
            have hadds : ∀ k, k ∈ keysA d0.versions →
                k ∈ keysA (Storage._merge_versions
                  (setUplinkRec st.doc u.upname { etag := et0, fetched := some now })
                  d0 config).versions :=
              fun k hk => merge_keys_adds _ d0 config k hk
            have hkeep : ∀ k, k ∈ keysA st.doc.versions →
                k ∈ keysA (Storage._merge_versions
                  (setUplinkRec st.doc u.upname { etag := et0, fetched := some now })
                  d0 config).versions :=
              fun k hk => merge_keys_mono _ d0 config k hk
            refine ⟨fun k hk => hmono k (hkeep k hk),
              fun u2 hu2 d et hresp2 hname2 k hk => ?_⟩
            rcases List.mem_cons.1 hu2 with h2 | h2
            · rw [h2, hresp] at hresp2
              injection hresp2 with hd het
              rw [← hd] at hk
              exact hmono k (hadds k hk)
            · exact hrest u2 h2 d et hresp2 hname2 k hk
          · rw [syncStep_invalid hq hresp hname] at h
            simp only [Option.bind_eq_bind, Option.some_bind] at h
            obtain ⟨hmono, hrest⟩ := ih _ st2 h
              (fun u2 hu2 => hrec u2 (List.mem_cons_of_mem _ hu2)) htn
            refine ⟨hmono, fun u2 hu2 d et hresp2 hname2 k hk => ?_⟩
            rcases List.mem_cons.1 hu2 with h2 | h2
            · rw [h2, hresp] at hresp2
              injection hresp2 with hd het
              rw [← hd] at hname2
              exact absurd hname2 hname
            · exact hrest u2 h2 d et hresp2 hname2 k hk

/-- The output whitelist of `get_package`. -/
def whitelist : List String := ["_rev", "name", "versions", "dist-tags", "readme"]

theorem postprocess_keys (config : Config) (d : PkgDoc) :
    (postprocess config d).keys ⊆ whitelist ++ ["_attachments"] := by
  obtain ⟨dt, hpp, _⟩ := postprocess_shape config d
  rw [hpp]
  intro x hx
  cases hr : d.readme <;> cases hv : d.rev <;>
    simp [PkgDoc.keys, hr, hv] at hx <;>
    simp [whitelist] <;>
    tauto

theorem withLatest_nodup (config : Config) (d : PkgDoc)
    (h : (keysA d.distTags).Nodup) :
    (keysA (withLatest config d).distTags).Nodup := by
  unfold withLatest
  split_ifs with h2
  · exact keysA_nodup_insertA d.distTags "latest" _ h
  · exact h

/-- C3: for a package that exists only on uplinks (the local store answered
404) and for which `get_package` succeeds, the returned document (i)
contains every version of every valid uplink response (with distinctly-named
candidates nothing is ever skipped on an unseeded pass); (ii) has its
top-level keys restricted to the whitelist plus `_attachments`; (iii) has an
empty `_attachments` container; (iv) carries only scalar dist-tags, every
still-list-valued tag having been collapsed to the last element of its list
(the key is dropped if that element is nullish, i.e. the list empty); and
(v) when `latest` was absent/falsy after the merge or the configuration says
to ignore upstream's `latest`, the returned `dist-tags.latest` is the
semantically greatest of all known versions — a qualifying version of the
result that every qualifying version is semver-below — or is dropped when no
version qualifies. -/
theorem get_package_remote_only (name : String) (e0 : ErrObj) (ups : List Uplink)
    (policy : String → Bool) (config : Config) (now : Int)
    (mdoc doc : PkgDoc) (errs0 errs : List (Option ErrObj))
    (h404 : e0.status = some 404)
    (hnodup : ((ups.filter (fun u2 => policy u2.upname)).map Uplink.upname).Nodup)
    (hsync : Storage._sync_package_with_uplinks name none ups policy config now
        = some (.ok mdoc, errs0))
    (hres : Storage.get_package name (.error e0) ups policy config now
        = some (.ok (doc, errs))) :
    (∀ u ∈ ups.filter (fun u2 => policy u2.upname), ∀ d et, u.resp = .ok d et →
        d.name = name → ∀ k v, (k, v) ∈ d.versions → k ∈ keysA doc.versions)
    ∧ doc.keys ⊆ whitelist ++ ["_attachments"]
    ∧ doc.attachments = some []
    ∧ (∀ t v, lookupA doc.distTags t = some v → ∃ s, v = .str s)
    ∧ (∀ t l2, lookupA (withLatest config (strip mdoc)).distTags t = some (.list l2) →
        lookupA doc.distTags t = (l2.getLast?).map TagVal.str)
    ∧ ((config.ignoreLatestTag = true ∨ tag_falsy (lookupA mdoc.distTags "latest") = true) →
        ((∃ s, lookupA doc.distTags "latest" = some (.str s) ∧ s ∈ keysA doc.versions ∧
           ∀ v ∈ keysA doc.versions, qualifies v = true → semverR v s) ∨
         (lookupA doc.distTags "latest" = none ∧
           ∀ v ∈ keysA doc.versions, qualifies v = false))) := by
  have habort : local_abort e0 = false := by
    unfold local_abort
    rw [h404]
    rfl
  have hgp : Storage.get_package name (.error e0) ups policy config now
      = some (.ok (postprocess config mdoc, errs0)) := by
    simp [Storage.get_package, habort, hsync, postpack]
  rw [hgp] at hres
  have h2 := Option.some.inj hres
  injection h2 with h3
  have hdoc1 : doc = postprocess config mdoc := (congrArg Prod.fst h3).symm
  subst hdoc1
  -- extract the pass state
  rw [sync_eq] at hsync
  rcases hrun : syncRun name none ups policy config now with _ | st2
  · rw [hrun] at hsync; simp at hsync
  · rw [hrun] at hsync
    by_cases hfound : st2.found = true
    · have hsync2 : st2.doc = mdoc ∧ st2.errs = errs0 := by
        simp [hfound] at hsync
        exact ⟨hsync.1, hsync.2⟩
      obtain ⟨hst2doc, _⟩ := hsync2
      obtain ⟨dt, hpp, hdt⟩ := postprocess_shape config mdoc
      have hver : (postprocess config mdoc).versions = mdoc.versions := by rw [hpp]
      have hdist : (postprocess config mdoc).distTags
          = collapseTags (withLatest config (strip mdoc)).distTags := by
        rw [hpp, hdt]
      have hmnodup : (keysA mdoc.distTags).Nodup := by
        rw [← hst2doc]
        exact syncFold_distTags_nodup name config now
          (ups.filter (fun u2 => policy u2.upname))
          ⟨skeleton name, false, [], []⟩ st2
          (by rw [← syncRun_none]; exact hrun)
          (by simp [skeleton, keysA])
      have hwlnodup : (keysA (withLatest config (strip mdoc)).distTags).Nodup :=
        withLatest_nodup config (strip mdoc) hmnodup
      refine ⟨?_, postprocess_keys config mdoc, by rw [hpp], ?_, ?_, ?_⟩
      · -- (1) every remote version present
        intro u hu d et hresp hname k v hkv
        have hvers := syncFold_versions name config now
          (ups.filter (fun u2 => policy u2.upname))
          ⟨skeleton name, false, [], []⟩ st2
          (by rw [← syncRun_none]; exact hrun)
          (fun u2 hu2 => rfl) hnodup
        rw [hver]
        rw [← hst2doc]
        exact hvers.2 u hu d et hresp hname k (List.mem_map_of_mem Prod.fst hkv)
      · -- (4a) scalars only
        intro t v hv
        rw [hdist] at hv
        exact collapseTags_scalar _ t v hv
      · -- (4b) collapse relation
        intro t l2 hl2
        rw [hdist]
        exact collapseTags_lookup_list _ t l2 hwlnodup hl2
      · -- (5) latest resolution
        intro hlat
        have hcond : (config.ignoreLatestTag
            || tag_falsy (lookupA (strip mdoc).distTags "latest")) = true := by
          rcases hlat with h | h
          · simp [h]
          · have hstrip : (strip mdoc).distTags = mdoc.distTags := rfl
            rw [hstrip, h]
            simp
        have hwl : withLatest config (strip mdoc) = { strip mdoc with distTags := insertA (strip mdoc).distTags "latest" (.list (Utils.semver_sort (keysA (strip mdoc).versions))) } := by
          unfold withLatest
          rw [if_pos hcond]
        have hsv : (strip mdoc).versions = mdoc.versions := rfl
        have hlook : lookupA (withLatest config (strip mdoc)).distTags "latest"
            = some (.list (Utils.semver_sort (keysA mdoc.versions))) := by
          rw [hwl]
          show lookupA (insertA (strip mdoc).distTags "latest"
            (.list (Utils.semver_sort (keysA (strip mdoc).versions)))) "latest" = _
          rw [lookupA_insertA_self, hsv]
        have hfin : lookupA (postprocess config mdoc).distTags "latest"
            = ((Utils.semver_sort (keysA mdoc.versions)).getLast?).map TagVal.str := by
          rw [hdist]
          exact collapseTags_lookup_list _ "latest" _ hwlnodup hlook
        cases hS : (Utils.semver_sort (keysA mdoc.versions)).getLast? with
        | none =>
            refine Or.inr ⟨by rw [hfin, hS]; rfl, ?_⟩
            intro v hv
            rw [hver] at hv
            rw [List.getLast?_eq_none_iff] at hS
            exact semver_sort_eq_nil hS v hv
        | some s =>
            refine Or.inl ⟨s, by rw [hfin, hS]; rfl, ?_, ?_⟩
            · have hmem : s ∈ Utils.semver_sort (keysA mdoc.versions) := by
                rcases List.mem_getLast?_eq_getLast
                  (show s ∈ (Utils.semver_sort (keysA mdoc.versions)).getLast? from
                    by rw [Option.mem_def]; exact hS) with ⟨hne, hgl⟩
                rw [hgl]
                exact List.getLast_mem hne
              rw [hver]
              exact ((semver_sort_mem _ s).1 hmem).1
            · intro v hv hq
              rw [hver] at hv
              have hvm : v ∈ Utils.semver_sort (keysA mdoc.versions) :=
                (semver_sort_mem _ v).2 ⟨hv, hq⟩
              exact sorted_getLast_max _ (semver_sort_sorted _) v hvm s hS
    · exfalso
      have hf2 : st2.found = false := by simpa using hfound
      simp [hf2] at hsync

/-- Witness for C3 at a concrete input: one uplink carrying versions 1.0.0
and 1.1.0 and no dist-tags; the result holds both versions, an empty
attachments container, and latest resolved to 1.1.0. -/
theorem get_package_remote_only_witness :
    Storage.get_package "p" (.error ⟨some 404, "nf"⟩) [⟨"u1", 10, .ok { skeleton "p" with versions := [("1.0.0", .vdata "a"), ("1.1.0", .vdata "b")] } none⟩] (fun _ => true) ⟨false⟩ 0 = some (.ok ({ name := "p", versions := [("1.0.0", .vdata "a"), ("1.1.0", .vdata "b")], distTags := [("latest", .str "1.1.0")], readme := none, rev := none, uplinks := none, distfiles := none, attachments := some [], extra := [] }, [none]))
    ∧ ({ name := "p", versions := [("1.0.0", .vdata "a"), ("1.1.0", .vdata "b")], distTags := [("latest", .str "1.1.0")], readme := none, rev := none, uplinks := none, distfiles := none, attachments := some [], extra := [] } : PkgDoc).attachments = some []
    ∧ "1.0.0" ∈ keysA ({ name := "p", versions := [("1.0.0", .vdata "a"), ("1.1.0", .vdata "b")], distTags := [("latest", .str "1.1.0")], readme := none, rev := none, uplinks := none, distfiles := none, attachments := some [], extra := [] } : PkgDoc).versions := by
  refine ⟨by decide, ?_, ?_⟩
  · exact (get_package_remote_only "p" ⟨some 404, "nf"⟩
      [⟨"u1", 10, .ok { skeleton "p" with versions := [("1.0.0", .vdata "a"), ("1.1.0", .vdata "b")] } none⟩]
      (fun _ => true) ⟨false⟩ 0
      { name := "p", versions := [("1.0.0", .vdata "a"), ("1.1.0", .vdata "b")], distTags := [], readme := none, rev := none, uplinks := some [("u1", ⟨none, some 0⟩)], distfiles := none, attachments := none, extra := [] }
      { name := "p", versions := [("1.0.0", .vdata "a"), ("1.1.0", .vdata "b")], distTags := [("latest", .str "1.1.0")], readme := none, rev := none, uplinks := none, distfiles := none, attachments := some [], extra := [] }
      [none] [none] rfl (by decide) (by decide) (by decide)).2.2.1
  · exact (get_package_remote_only "p" ⟨some 404, "nf"⟩
      [⟨"u1", 10, .ok { skeleton "p" with versions := [("1.0.0", .vdata "a"), ("1.1.0", .vdata "b")] } none⟩]
      (fun _ => true) ⟨false⟩ 0
      { name := "p", versions := [("1.0.0", .vdata "a"), ("1.1.0", .vdata "b")], distTags := [], readme := none, rev := none, uplinks := some [("u1", ⟨none, some 0⟩)], distfiles := none, attachments := none, extra := [] }
      { name := "p", versions := [("1.0.0", .vdata "a"), ("1.1.0", .vdata "b")], distTags := [("latest", .str "1.1.0")], readme := none, rev := none, uplinks := none, distfiles := none, attachments := some [], extra := [] }
      [none] [none] rfl (by decide) (by decide) (by decide)).1
      ⟨"u1", 10, .ok { skeleton "p" with versions := [("1.0.0", .vdata "a"), ("1.1.0", .vdata "b")] } none⟩
      (by decide)
      { skeleton "p" with versions := [("1.0.0", .vdata "a"), ("1.1.0", .vdata "b")] }
      none rfl rfl "1.0.0" (.vdata "a") (by decide)
